import Mathlib

/-!
Verification of the sonar-assist core (`src/backend/sonar_assist`) of the
sushi-glitch repository.

Shallow embedding conventions:
* Python `float` values are modelled as `ℚ` (all operations used by the code
  under study are field operations and comparisons; the claims are about the
  algorithms, not float rounding).
* Python `int` values are modelled as `ℤ` (or `ℕ` for counters).
* Python `int(x)` (truncation toward zero) is `truncToInt`.
* Euclidean distances (`scipy.spatial.distance.cdist`, `np.linalg.norm`) are
  represented by their squares (`sqDist`), which stay in `ℚ`; every use in the
  source only compares distances with each other or with a threshold, and
  squaring is strictly monotone on nonnegative reals, so comparisons with a
  threshold `t` are translated as indicated at each site (`0 < t ∧ sq < t^2`
  for `dist < t`, `t < 0 ∨ t^2 < sq` for `dist > t`).
-/

/-- Python `int()`: truncation of a rational toward zero. -/
def truncToInt (q : ℚ) : ℤ := if 0 ≤ q then ⌊q⌋ else ⌈q⌉

theorem abs_truncToInt_sub_lt_one (q : ℚ) : |(truncToInt q : ℚ) - q| < 1 := by
  unfold truncToInt
  split
  · rw [abs_sub_lt_iff]
    constructor
    · have := Int.floor_le q
      linarith
    · have := Int.lt_floor_add_one q
      linarith
  · rw [abs_sub_lt_iff]
    constructor
    · have := Int.ceil_lt_add_one q
      linarith
    · have := Int.le_ceil q
      linarith

/-- Truncation of an integer is the identity. -/
theorem truncToInt_intCast (z : ℤ) : truncToInt (z : ℚ) = z := by
  unfold truncToInt
  split
  · exact Int.floor_intCast z
  · exact Int.ceil_intCast z

/-- Clamping to an interval that contains `d` cannot move a point further
away from `d`. -/
theorem abs_clamp_sub_le {lo hi d v : ℚ} (h1 : lo ≤ d) (h2 : d ≤ hi) :
    |max lo (min hi v) - d| ≤ |v - d| := by
  rcases le_total v d with hv | hv
  · have hmin : min hi v = v := min_eq_right (hv.trans h2)
    rw [hmin]
    have hw1 : max lo v ≤ d := max_le h1 hv
    have hw2 : v ≤ max lo v := le_max_right _ _
    rw [abs_of_nonpos (by linarith), abs_of_nonpos (by linarith)]
    linarith
  · have hge : d ≤ min hi v := le_min h2 hv
    have hle : max lo (min hi v) ≤ v := max_le (h1.trans hv) (min_le_right _ _)
    have hge2 : d ≤ max lo (min hi v) := hge.trans (le_max_right _ _)
    rw [abs_of_nonneg (by linarith), abs_of_nonneg (by linarith)]
    linarith

/-! ## Calibration (`calibration.py`, class `DepthCalibrator`)

`calibration_data` is the dictionary `{pix_top, pix_bot, ft_top, ft_bot}`;
pixel coordinates come from mouse clicks (ints) and depths are user floats. -/

structure DepthMap where
  pix_top : ℤ
  pix_bot : ℤ
  ft_top : ℚ
  ft_bot : ℚ

/-- `DepthCalibrator.pixel_to_depth`: linear interpolation from pixel row to
depth in feet, guarded against a degenerate pixel span and clamped by
`max(ft_top, min(ft_bot, depth))`. -/
def pixel_to_depth (c : DepthMap) (pixel_y : ℤ) : ℚ :=
  if c.pix_bot = c.pix_top then c.ft_top
  else
    let r : ℚ := ((pixel_y : ℚ) - (c.pix_top : ℚ)) / ((c.pix_bot : ℚ) - (c.pix_top : ℚ))
    let depth := c.ft_top + r * (c.ft_bot - c.ft_top)
    max c.ft_top (min c.ft_bot depth)

/-- `DepthCalibrator.depth_to_pixel`: inverse linear interpolation, guarded
against a degenerate depth span; the result is truncated by Python `int()`. -/
def depth_to_pixel (c : DepthMap) (depth_ft : ℚ) : ℤ :=
  if c.ft_bot = c.ft_top then c.pix_top
  else
    let r : ℚ := (depth_ft - c.ft_top) / (c.ft_bot - c.ft_top)
    let pixel : ℚ := (c.pix_top : ℚ) + r * ((c.pix_bot : ℚ) - (c.pix_top : ℚ))
    truncToInt pixel

/-- C1 (counterexample): the round trip is NOT within 0.5 ft for every valid
(non-degenerate, properly ordered) calibration: with the steep mapping
`pix_top = 0, pix_bot = 1, ft_top = 0, ft_bot = 100` and `d = 50` (inside the
depth range), `depth_to_pixel 50 = int(0.5) = 0` and `pixel_to_depth 0 = 0`,
an error of 50 ft. -/
theorem roundtrip_half_ft_counterexample :
    (DepthMap.mk 0 1 0 100).pix_top ≠ (DepthMap.mk 0 1 0 100).pix_bot ∧
    (DepthMap.mk 0 1 0 100).ft_top ≤ 50 ∧ (50 : ℚ) ≤ (DepthMap.mk 0 1 0 100).ft_bot ∧
    ¬ |pixel_to_depth (DepthMap.mk 0 1 0 100)
        (depth_to_pixel (DepthMap.mk 0 1 0 100) 50) - 50| ≤ 1 / 2 := by
  refine ⟨by norm_num, by norm_num, by norm_num, ?_⟩
  have h1 : depth_to_pixel (DepthMap.mk 0 1 0 100) 50 = 0 := by
    simp only [depth_to_pixel, truncToInt]
    norm_num
  rw [h1]
  simp only [pixel_to_depth]
  norm_num

/-- C1 (amended): for a non-inverted calibration whose resolution is at most
half a foot per pixel (`2·(ft_bot − ft_top) ≤ |pix_bot − pix_top|`), the round
trip `pixel_to_depth (depth_to_pixel d)` is within 0.5 ft of every depth `d`
inside `[ft_top, ft_bot]`. -/
theorem roundtrip_within_half_ft (c : DepthMap) (d : ℚ)
    (hft : c.ft_top ≤ c.ft_bot)
    (hres : 2 * (c.ft_bot - c.ft_top) ≤ |(c.pix_bot : ℚ) - (c.pix_top : ℚ)|)
    (hd1 : c.ft_top ≤ d) (hd2 : d ≤ c.ft_bot) :
    |pixel_to_depth c (depth_to_pixel c d) - d| ≤ 1 / 2 := by
  by_cases hfe : c.ft_bot = c.ft_top
  · have hdt : d = c.ft_top := le_antisymm (hfe ▸ hd2) hd1
    have h1 : depth_to_pixel c d = c.pix_top := by
      simp only [depth_to_pixel, if_pos hfe]
    rw [h1]
    have h2 : pixel_to_depth c c.pix_top = c.ft_top := by
      simp only [pixel_to_depth]
      split
      · rfl
      · rw [sub_self, zero_div, zero_mul, add_zero, hfe, min_self, max_self]
    rw [h2, hdt, sub_self, abs_zero]
    norm_num
  · have hflt : c.ft_top < c.ft_bot := lt_of_le_of_ne hft (Ne.symm hfe)
    have hdf : (0 : ℚ) < c.ft_bot - c.ft_top := by linarith
    have hpabs : (0 : ℚ) < |(c.pix_bot : ℚ) - (c.pix_top : ℚ)| := by linarith
    have hpne : ((c.pix_bot : ℚ) - (c.pix_top : ℚ)) ≠ 0 := by
      intro h
      rw [h, abs_zero] at hpabs
      exact lt_irrefl 0 hpabs
    have hpbne : c.pix_bot ≠ c.pix_top := by
      intro h
      exact hpne (by rw [h]; ring)
    set x : ℚ := (c.pix_top : ℚ) +
      (d - c.ft_top) / (c.ft_bot - c.ft_top) * ((c.pix_bot : ℚ) - (c.pix_top : ℚ)) with hx
    have hdtp : depth_to_pixel c d = truncToInt x := by
      simp only [depth_to_pixel, if_neg hfe, hx]
    set p : ℤ := truncToInt x with hp
    have herr : |(p : ℚ) - x| < 1 := abs_truncToInt_sub_lt_one x
    set u : ℚ := c.ft_top +
      ((p : ℚ) - (c.pix_top : ℚ)) / ((c.pix_bot : ℚ) - (c.pix_top : ℚ)) * (c.ft_bot - c.ft_top)
      with hu
    have hud : u - d = ((p : ℚ) - x) / ((c.pix_bot : ℚ) - (c.pix_top : ℚ)) *
        (c.ft_bot - c.ft_top) := by
      rw [hu, hx]
      field_simp
      ring
    have habs : |u - d| < (c.ft_bot - c.ft_top) / |(c.pix_bot : ℚ) - (c.pix_top : ℚ)| := by
      rw [hud, abs_mul, abs_div, abs_of_pos hdf, div_mul_eq_mul_div,
        div_lt_div_iff₀ hpabs hpabs]
      nlinarith [abs_nonneg ((p : ℚ) - x), mul_pos hdf hpabs]
    have hhalf : (c.ft_bot - c.ft_top) / |(c.pix_bot : ℚ) - (c.pix_top : ℚ)| ≤ 1 / 2 := by
      rw [div_le_div_iff₀ hpabs (by norm_num : (0 : ℚ) < 2)]
      linarith
    have hptd : pixel_to_depth c p = max c.ft_top (min c.ft_bot u) := by
      simp only [pixel_to_depth, if_neg hpbne, hu]
    rw [hdtp, hptd]
    calc |max c.ft_top (min c.ft_bot u) - d| ≤ |u - d| := abs_clamp_sub_le hd1 hd2
      _ ≤ 1 / 2 := le_of_lt (lt_of_lt_of_le habs hhalf)

theorem roundtrip_within_half_ft_witness :
    |pixel_to_depth (DepthMap.mk 50 650 0 100)
      (depth_to_pixel (DepthMap.mk 50 650 0 100) 30) - 30| ≤ 1 / 2 :=
  roundtrip_within_half_ft (DepthMap.mk 50 650 0 100) 30 (by norm_num)
    (by norm_num) (by norm_num) (by norm_num)

/-- C2 (counterexample): for a depth-inverted mapping (`ft_top > ft_bot`) the
output is NOT clamped to the nearest boundary depth for out-of-range pixels:
with `pix_top = 0, pix_bot = 100, ft_top = 100, ft_bot = 0` and pixel
`150 > pix_bot`, the nearest boundary depth is `ft_bot = 0` but the code
returns `ft_top = 100` (the clamp `max(ft_top, min(ft_bot, ·))` is constantly
`ft_top` on inverted ranges). -/
theorem pixel_to_depth_inverted_counterexample :
    (DepthMap.mk 0 100 100 0).pix_bot < 150 ∧
    pixel_to_depth (DepthMap.mk 0 100 100 0) 150 = (DepthMap.mk 0 100 100 0).ft_top ∧
    pixel_to_depth (DepthMap.mk 0 100 100 0) 150 ≠ (DepthMap.mk 0 100 100 0).ft_bot := by
  refine ⟨by norm_num, ?_, ?_⟩ <;>
  · simp only [pixel_to_depth]
    norm_num

/-- C2 (amended): assume `pix_top < pix_bot`. If the depth range is not
inverted (`ft_top ≤ ft_bot`), `pixel_to_depth` is monotone nondecreasing in
the pixel, its result lies in `[ft_top, ft_bot]`, and for pixels outside
`[pix_top, pix_bot]` it equals the nearest boundary depth. If the depth range
is inverted (`ft_bot < ft_top`), the result is constantly `ft_top`. -/
theorem pixel_to_depth_monotone_clamped (c : DepthMap) (hpix : c.pix_top < c.pix_bot) :
    (c.ft_top ≤ c.ft_bot →
      (∀ p q : ℤ, p ≤ q → pixel_to_depth c p ≤ pixel_to_depth c q) ∧
      (∀ p : ℤ, c.ft_top ≤ pixel_to_depth c p ∧ pixel_to_depth c p ≤ c.ft_bot) ∧
      (∀ p : ℤ, p ≤ c.pix_top → pixel_to_depth c p = c.ft_top) ∧
      (∀ p : ℤ, c.pix_bot ≤ p → pixel_to_depth c p = c.ft_bot)) ∧
    (c.ft_bot < c.ft_top → ∀ p : ℤ, pixel_to_depth c p = c.ft_top) := by
  have hpbne : c.pix_bot ≠ c.pix_top := ne_of_gt hpix
  have hdp : (0 : ℚ) < (c.pix_bot : ℚ) - (c.pix_top : ℚ) := by
    have : (c.pix_top : ℚ) < (c.pix_bot : ℚ) := by exact_mod_cast hpix
    linarith
  constructor
  · intro hft
    refine ⟨?_, ?_, ?_, ?_⟩
    · intro p q hpq
      simp only [pixel_to_depth, if_neg hpbne]
      have hcast : (p : ℚ) ≤ (q : ℚ) := by exact_mod_cast hpq
      have hinv : (0 : ℚ) ≤ ((c.pix_bot : ℚ) - (c.pix_top : ℚ))⁻¹ :=
        inv_nonneg.mpr (le_of_lt hdp)
      have h1 : ((p : ℚ) - (c.pix_top : ℚ)) * ((c.pix_bot : ℚ) - (c.pix_top : ℚ))⁻¹ ≤
          ((q : ℚ) - (c.pix_top : ℚ)) * ((c.pix_bot : ℚ) - (c.pix_top : ℚ))⁻¹ :=
        mul_le_mul_of_nonneg_right (by linarith) hinv
      have h2 : ((p : ℚ) - (c.pix_top : ℚ)) / ((c.pix_bot : ℚ) - (c.pix_top : ℚ)) *
            (c.ft_bot - c.ft_top) ≤
          ((q : ℚ) - (c.pix_top : ℚ)) / ((c.pix_bot : ℚ) - (c.pix_top : ℚ)) *
            (c.ft_bot - c.ft_top) := by
        rw [div_eq_mul_inv, div_eq_mul_inv]
        exact mul_le_mul_of_nonneg_right h1 (by linarith)
      exact max_le_max (le_refl _) (min_le_min (le_refl _) (by linarith))
    · intro p
      simp only [pixel_to_depth, if_neg hpbne]
      exact ⟨le_max_left _ _, max_le hft (min_le_left _ _)⟩
    · intro p hp
      simp only [pixel_to_depth, if_neg hpbne]
      have hcast : (p : ℚ) ≤ (c.pix_top : ℚ) := by exact_mod_cast hp
      have hr : ((p : ℚ) - (c.pix_top : ℚ)) / ((c.pix_bot : ℚ) - (c.pix_top : ℚ)) ≤ 0 :=
        div_nonpos_of_nonpos_of_nonneg (by linarith) (le_of_lt hdp)
      have hu : c.ft_top + ((p : ℚ) - (c.pix_top : ℚ)) / ((c.pix_bot : ℚ) - (c.pix_top : ℚ)) *
          (c.ft_bot - c.ft_top) ≤ c.ft_top := by
        nlinarith
      rw [min_eq_right (hu.trans hft), max_eq_left hu]
    · intro p hp
      simp only [pixel_to_depth, if_neg hpbne]
      have hcast : (c.pix_bot : ℚ) ≤ (p : ℚ) := by exact_mod_cast hp
      have hr : (1 : ℚ) ≤ ((p : ℚ) - (c.pix_top : ℚ)) / ((c.pix_bot : ℚ) - (c.pix_top : ℚ)) :=
        (one_le_div hdp).mpr (by linarith)
      have hu : c.ft_bot ≤ c.ft_top +
          ((p : ℚ) - (c.pix_top : ℚ)) / ((c.pix_bot : ℚ) - (c.pix_top : ℚ)) *
          (c.ft_bot - c.ft_top) := by
        nlinarith
      rw [min_eq_left hu, max_eq_right hft]
  · intro hinv p
    simp only [pixel_to_depth, if_neg hpbne]
    exact max_eq_left ((min_le_left _ _).trans (le_of_lt hinv))

theorem pixel_to_depth_monotone_clamped_witness :
    pixel_to_depth (DepthMap.mk 50 650 0 100) 700 = 100 :=
  ((pixel_to_depth_monotone_clamped (DepthMap.mk 50 650 0 100)
    (by norm_num)).1 (by norm_num)).2.2.2 700 (by norm_num)

/-- C9: for a degenerate calibration (equal pixel references or equal depth
references) both conversions are constant — `pixel_to_depth` always returns
`ft_top` and `depth_to_pixel` always returns `pix_top` — so no division by
zero is ever performed. -/
theorem degenerate_calibration_constant (c : DepthMap)
    (h : c.pix_top = c.pix_bot ∨ c.ft_top = c.ft_bot) :
    (∀ p : ℤ, pixel_to_depth c p = c.ft_top) ∧
    (∀ d : ℚ, depth_to_pixel c d = c.pix_top) := by
  constructor
  · intro p
    simp only [pixel_to_depth]
    rcases h with hp | hf
    · rw [if_pos hp.symm]
    · split
      · rfl
      · have h0 : c.ft_bot - c.ft_top = 0 := by rw [hf, sub_self]
        rw [h0, mul_zero, add_zero, ← hf, min_self, max_self]
  · intro d
    simp only [depth_to_pixel]
    rcases h with hp | hf
    · split
      · rw [hp]
      · have h0 : ((c.pix_bot : ℚ) - (c.pix_top : ℚ)) = 0 := by
          rw [hp]; ring
        rw [h0, mul_zero, add_zero, truncToInt_intCast]
    · rw [if_pos hf.symm]

theorem degenerate_calibration_constant_witness :
    pixel_to_depth (DepthMap.mk 100 100 0 50) 7 = 0 ∧
    depth_to_pixel (DepthMap.mk 100 100 0 50) 20 = 100 :=
  ⟨(degenerate_calibration_constant (DepthMap.mk 100 100 0 50) (Or.inl rfl)).1 7,
   (degenerate_calibration_constant (DepthMap.mk 100 100 0 50) (Or.inl rfl)).2 20⟩

/-! ## Remote-classifier sampling policy (`groq_cv.py`, `GroqCV.should_query`) -/

structure GroqCV where
  enabled : Bool

/-- `GroqCV.__init__`: the client is enabled exactly when an API key string is
present and non-empty (`self.enabled = bool(self.api_key)`). -/
def GroqCV.ofApiKey (api_key : Option String) : GroqCV :=
  { enabled := decide (api_key.getD "" ≠ "") }

/-- `GroqCV.should_query`. For a non-positive `sample_rate_hz` the Python code
sets `frames_between_samples = float('inf')`, and `frame_count % max(1, inf)`
equals `frame_count` (as a float), so the sampling test succeeds only for
`frame_count == 0`; this is the `else` branch below. The default
`ambiguity_threshold` in the source is `0.5`. -/
def should_query (g : GroqCV) (frame_count : ℕ) (sample_rate_hz fps : ℚ)
    (cv_confidence : Option ℚ) (ambiguity_threshold : ℚ) : Bool :=
  if g.enabled then
    let is_sample_frame : Bool :=
      if 0 < sample_rate_hz then
        decide ((frame_count : ℤ) % max 1 (truncToInt (fps / sample_rate_hz)) = 0)
      else decide (frame_count = 0)
    let is_ambiguous : Bool :=
      match cv_confidence with
      | some conf => decide (conf < ambiguity_threshold)
      | none => false
    is_sample_frame || is_ambiguous
  else false

/-- The sampling predicate as the specification words it (a non-positive
target rate is "treated as always sample"); defined only to exhibit the
divergence from `should_query`. -/
def should_query_specClaim (g : GroqCV) (frame_count : ℕ) (sample_rate_hz fps : ℚ)
    (cv_confidence : Option ℚ) (ambiguity_threshold : ℚ) : Bool :=
  if g.enabled then
    let is_sample_frame : Bool :=
      if 0 < sample_rate_hz then
        decide ((frame_count : ℤ) % max 1 (truncToInt (fps / sample_rate_hz)) = 0)
      else true
    let is_ambiguous : Bool :=
      match cv_confidence with
      | some conf => decide (conf < ambiguity_threshold)
      | none => false
    is_sample_frame || is_ambiguous
  else false

/-- C3 (counterexample): with the classifier configured, frame 5, target rate
0 (non-positive), fps 30 and no local confidence, the claim ("treated as
always sample") demands `true` but the code returns `false`: in Python
`5 % float('inf') == 5.0 ≠ 0`, so a non-positive rate samples only frame 0. -/
theorem should_query_nonpositive_rate_counterexample :
    should_query (GroqCV.ofApiKey (some "key")) 5 0 30 none (1 / 2) = false ∧
    should_query_specClaim (GroqCV.ofApiKey (some "key")) 5 0 30 none (1 / 2) = true := by
  have he : (GroqCV.ofApiKey (some "key")).enabled = true := by decide
  constructor <;>
  · simp only [should_query, should_query_specClaim, he, if_true]
    norm_num

/-- C3 (amended): `should_query` returns false whenever the remote classifier
is not configured; otherwise it returns true iff the frame index is a
scheduled sample frame — `frame_count % max(1, int(fps / sample_rate_hz)) == 0`
for a positive target rate, and only `frame_count == 0` for a non-positive
target rate — or the supplied local confidence is below the ambiguity
threshold. -/
theorem should_query_iff (g : GroqCV) (frame_count : ℕ) (sample_rate_hz fps : ℚ)
    (cv_confidence : Option ℚ) (thr : ℚ) :
    should_query g frame_count sample_rate_hz fps cv_confidence thr = true ↔
      g.enabled = true ∧
        ((0 < sample_rate_hz ∧
            (frame_count : ℤ) % max 1 (truncToInt (fps / sample_rate_hz)) = 0) ∨
          (sample_rate_hz ≤ 0 ∧ frame_count = 0) ∨
          (∃ conf, cv_confidence = some conf ∧ conf < thr)) := by
  unfold should_query
  rcases g with ⟨e⟩
  cases e
  · simp
  · by_cases hr : 0 < sample_rate_hz
    · have hnr : ¬ sample_rate_hz ≤ 0 := not_le.mpr hr
      cases cv_confidence with
      | none => simp [hr, hnr]
      | some conf => simp [hr, hnr]
    · have hnr : sample_rate_hz ≤ 0 := not_lt.mp hr
      cases cv_confidence with
      | none => simp [hr, hnr]
      | some conf => simp [hr, hnr]

/-! ## Speech debouncing (`tts_elevenlabs.py`, class `DebounceManager`) -/

/-- Helper for Python `str.split()` with no separator: accumulate maximal
runs of non-whitespace characters, dropping empty chunks. -/
def splitWsAux : List Char → List Char → List String
  | [], acc => if acc = [] then [] else [String.mk acc.reverse]
  | ch :: rest, acc =>
    if ch.isWhitespace then
      if acc = [] then splitWsAux rest []
      else String.mk acc.reverse :: splitWsAux rest []
    else splitWsAux rest (ch :: acc)

/-- `msg.lower().split()`: lower-case then whitespace-split, on the string's
character list. -/
def pyTokens (s : String) : List String :=
  splitWsAux (s.data.map Char.toLower) []

/-- `DebounceManager._is_similar`: guards for empty strings and empty word
sets, then token-set Jaccard overlap compared with the threshold. -/
def is_similar (similarity_threshold : ℚ) (msg1 msg2 : String) : Bool :=
  if msg1 = "" ∨ msg2 = "" then false
  else if (pyTokens msg1).toFinset = ∅ ∨ (pyTokens msg2).toFinset = ∅ then false
  else decide (similarity_threshold ≤
    ((((pyTokens msg1).toFinset ∩ (pyTokens msg2).toFinset).card : ℚ) /
      (((pyTokens msg1).toFinset ∪ (pyTokens msg2).toFinset).card : ℚ)))

/-- Token-set Jaccard overlap of two messages (the quantity
`len(intersection) / len(union)` of `_is_similar`). -/
def jaccard (msg1 msg2 : String) : ℚ :=
  (((pyTokens msg1).toFinset ∩ (pyTokens msg2).toFinset).card : ℚ) /
    (((pyTokens msg1).toFinset ∪ (pyTokens msg2).toFinset).card : ℚ)

structure DebounceState where
  debounce_sec : ℚ
  similarity_threshold : ℚ
  last_message : String
  last_time : ℚ

/-- `DebounceManager.__init__` (defaults in source: `debounce_sec = 2.5`,
`similarity_threshold = 0.8`): no last message, last time 0. -/
def DebounceManager.mkInit (debounce_sec similarity_threshold : ℚ) : DebounceState :=
  DebounceState.mk debounce_sec similarity_threshold "" 0

/-- `DebounceManager.should_speak`; `now` is the value of `time.time()` at
the call. Returns the decision and the updated manager state. -/
def should_speak (st : DebounceState) (now : ℚ) (message : String) :
    Bool × DebounceState :=
  if now - st.last_time < st.debounce_sec ∧
      is_similar st.similarity_threshold message st.last_message then
    (false, st)
  else
    (true, { st with last_message := message, last_time := now })

theorem pyTokens_empty : pyTokens "" = [] := rfl

theorem is_similar_empty_right (thr : ℚ) (m : String) : is_similar thr m "" = false := by
  unfold is_similar
  rw [if_pos (Or.inr rfl)]

theorem jaccard_self {m : String} (h : (pyTokens m).toFinset ≠ ∅) :
    jaccard m m = 1 := by
  unfold jaccard
  rw [Finset.inter_self, Finset.union_self]
  have hc : ((pyTokens m).toFinset.card : ℚ) ≠ 0 := by
    simp only [ne_eq, Nat.cast_eq_zero, Finset.card_eq_zero]
    exact h
  exact div_self hc

/-- For a positive threshold, the guarded `_is_similar` coincides with the
raw Jaccard test (in the guard cases the Jaccard overlap is 0). -/
theorem is_similar_iff_jaccard {thr : ℚ} (hthr : 0 < thr) (m1 m2 : String) :
    is_similar thr m1 m2 = true ↔ thr ≤ jaccard m1 m2 := by
  have hz0 : ∀ a b : Finset String, a = ∅ ∨ b = ∅ → ((a ∩ b).card : ℚ) = 0 := by
    intro a b h
    rcases h with h | h <;> simp [h]
  unfold is_similar jaccard
  by_cases h1 : m1 = "" ∨ m2 = ""
  · rw [if_pos h1]
    have hz : (((pyTokens m1).toFinset ∩ (pyTokens m2).toFinset).card : ℚ) = 0 := by
      apply hz0
      rcases h1 with h | h
      · exact Or.inl (by rw [h, pyTokens_empty]; rfl)
      · exact Or.inr (by rw [h, pyTokens_empty]; rfl)
    rw [hz, zero_div]
    simp only [Bool.false_eq_true, false_iff, not_le]
    exact hthr
  · rw [if_neg h1]
    by_cases h2 : (pyTokens m1).toFinset = ∅ ∨ (pyTokens m2).toFinset = ∅
    · rw [if_pos h2]
      rw [hz0 _ _ h2, zero_div]
      simp only [Bool.false_eq_true, false_iff, not_le]
      exact hthr
    · rw [if_neg h2]
      simp

theorem is_similar_self {thr : ℚ} {m : String} (hm : (pyTokens m).toFinset ≠ ∅)
    (hthr : thr ≤ 1) : is_similar thr m m = true := by
  unfold is_similar
  have hm' : ¬ (m = "" ∨ m = "") := by
    intro h
    rcases h with h | h <;>
      exact hm (by rw [h, pyTokens_empty]; rfl)
  rw [if_neg hm', if_neg (by intro h; rcases h with h | h <;> exact hm h)]
  simp only [decide_eq_true_eq, Finset.inter_self, Finset.union_self]
  have hc : ((pyTokens m).toFinset.card : ℚ) ≠ 0 := by
    simp only [ne_eq, Nat.cast_eq_zero, Finset.card_eq_zero]
    exact hm
  rw [div_self hc]
  exact hthr

/-- A call on a fresh manager state always accepts and stores the message. -/
theorem should_speak_fresh (d thr now : ℚ) (m : String) :
    should_speak (DebounceManager.mkInit d thr) now m =
      (true, DebounceState.mk d thr m now) := by
  unfold should_speak DebounceManager.mkInit
  rw [if_neg]
  intro hc
  have h2 : is_similar thr m "" = true := hc.2
  rw [is_similar_empty_right] at h2
  exact Bool.false_ne_true h2

/-- C6: `should_speak` (i) returns false exactly when less than
`debounce_sec` elapsed since the last accepted message AND the candidate's
token-set Jaccard overlap with it reaches the similarity threshold (stated
for a positive threshold; in the guard cases of `_is_similar` the overlap is
0); (ii) always allows the first message (fresh manager state); (iii) on the
identical-text scenario from a fresh state: first call true, a second call
within the window false, a later call after the window true; (iv) updates the
stored message/timestamp exactly on calls that return true. -/
theorem should_speak_spec :
    (∀ (st : DebounceState) (now : ℚ) (m : String), 0 < st.similarity_threshold →
      ((should_speak st now m).1 = false ↔
        (now - st.last_time < st.debounce_sec ∧
          st.similarity_threshold ≤ jaccard m st.last_message))) ∧
    (∀ (d thr now : ℚ) (m : String),
      (should_speak (DebounceManager.mkInit d thr) now m).1 = true) ∧
    (∀ (d thr t1 t2 t3 : ℚ) (m : String),
      (pyTokens m).toFinset ≠ ∅ → thr ≤ 1 →
      (t2 - t1 < d → (should_speak ((should_speak (DebounceManager.mkInit d thr) t1 m).2)
          t2 m).1 = false) ∧
      (d ≤ t3 - t1 → (should_speak ((should_speak (DebounceManager.mkInit d thr) t1 m).2)
          t3 m).1 = true)) ∧
    (∀ (st : DebounceState) (now : ℚ) (m : String),
      ((should_speak st now m).1 = true →
        (should_speak st now m).2 =
          { st with last_message := m, last_time := now }) ∧
      ((should_speak st now m).1 = false → (should_speak st now m).2 = st)) := by
  refine ⟨?_, ?_, ?_, ?_⟩
  · intro st now m hthr
    unfold should_speak
    split_ifs with h
    · simp only [true_iff]
      exact ⟨h.1, (is_similar_iff_jaccard hthr m st.last_message).mp h.2⟩
    · simp only [Bool.true_eq_false, false_iff]
      intro hc
      exact h ⟨hc.1, (is_similar_iff_jaccard hthr m st.last_message).mpr hc.2⟩
  · intro d thr now m
    rw [should_speak_fresh]
  · intro d thr t1 t2 t3 m hm hthr1
    rw [should_speak_fresh]
    constructor
    · intro hwin
      unfold should_speak
      rw [if_pos]
      exact ⟨hwin, is_similar_self hm hthr1⟩
    · intro hlate
      unfold should_speak
      rw [if_neg]
      intro hc
      have h1 : t3 - t1 < d := hc.1
      linarith
  · intro st now m
    unfold should_speak
    split_ifs with h
    · exact ⟨fun hc => absurd hc (by simp), fun _ => rfl⟩
    · exact ⟨fun _ => rfl, fun hc => absurd hc (by simp)⟩

theorem should_speak_spec_witness :
    (should_speak ((should_speak
        (DebounceManager.mkInit (5 / 2) (4 / 5)) 1000 "drop to 44 and hold").2)
      1001 "drop to 44 and hold").1 = false ∧
    (should_speak ((should_speak
        (DebounceManager.mkInit (5 / 2) (4 / 5)) 1000 "drop to 44 and hold").2)
      1004 "drop to 44 and hold").1 = true :=
  ⟨(should_speak_spec.2.2.1 (5 / 2) (4 / 5) 1000 1001 1004 "drop to 44 and hold"
      (by decide) (by norm_num)).1 (by norm_num),
   (should_speak_spec.2.2.1 (5 / 2) (4 / 5) 1000 1001 1004 "drop to 44 and hold"
      (by decide) (by norm_num)).2 (by norm_num)⟩

/-! ## Detections and clustering (`metrics.py`) -/

/-- Python tuple `(x, y, w, h)` from `cv2.boundingRect`. -/
structure BBox where
  x : ℤ
  y : ℤ
  w : ℤ
  h : ℤ

/-- Class `Detection` of `metrics.py`. -/
structure Detection where
  bbox : BBox
  area : ℚ
  density : ℚ
  tightness : ℚ
  centroid : ℚ × ℚ

/-- `Detection.mid_y`: `bbox[1] + bbox[3] // 2`. (`cv2.boundingRect` heights
are nonnegative, where Python floor division agrees with `Int` division.) -/
def Detection.mid_y (d : Detection) : ℤ := d.bbox.y + d.bbox.h / 2

/-- `classify_density` (`metrics.py`): sparse below `0.7 * threshold`,
moderate below `threshold`, else dense. -/
def classify_density (density : ℚ) (density_thr : ℚ) : String :=
  if density < density_thr * (7 / 10) then "sparse"
  else if density < density_thr then "moderate"
  else "dense"

/-- `calculate_school_size` (`metrics.py`). -/
def calculate_school_size (d : Detection) : String :=
  if d.area < 1000 then "small"
  else if d.area < 5000 then "medium"
  else "large"

/-- Squared Euclidean distance between two points. -/
def sqDist (a b : ℚ × ℚ) : ℚ := (a.1 - b.1) ^ 2 + (a.2 - b.2) ^ 2

/-- `np.mean([d.centroid for d in cluster], axis=0)`. -/
def clusterCentroid (cluster : List Detection) : ℚ × ℚ :=
  ((cluster.map (fun d => d.centroid.1)).sum / cluster.length,
   (cluster.map (fun d => d.centroid.2)).sum / cluster.length)

/-- The merge test `np.linalg.norm(c1 - c2) < merge_distance` of
`cluster_detections`, in squared form (`dist < t ↔ 0 < t ∧ dist² < t²` for a
nonnegative `dist`). -/
def mergeCond (merge_distance : ℚ) (c1 c2 : List Detection) : Bool :=
  decide (0 < merge_distance ∧
    sqDist (clusterCentroid c1) (clusterCentroid c2) < merge_distance ^ 2)

/-- Scan for the first cluster in the list mergeable with `c`; on success
return it and the remaining clusters in order. -/
def findMatch (m : ℚ) (c : List Detection) :
    List (List Detection) → Option (List Detection × List (List Detection))
  | [] => none
  | c2 :: rest =>
    if mergeCond m c c2 then some (c2, rest)
    else (findMatch m c rest).map (fun pr => (pr.1, c2 :: pr.2))

/-- One pass of the `while True:` merge loop of `cluster_detections`: find
the first pair `(i, j)` (outer index ascending, then inner) whose cluster
centroids are within `merge_distance`, extend cluster `i` with cluster `j`
and delete `j`; `none` when no pair is mergeable (loop exit). -/
def mergeOnce (m : ℚ) : List (List Detection) → Option (List (List Detection))
  | [] => none
  | c :: rest =>
    match findMatch m c rest with
    | some (cj, rest') => some ((c ++ cj) :: rest')
    | none => (mergeOnce m rest).map (fun cs => c :: cs)

/-- The merge loop with explicit fuel. Every iteration of the Python loop
removes exactly one cluster, so running with fuel `cs.length` is equal to
the unbounded loop. -/
def mergeLoop (m : ℚ) : ℕ → List (List Detection) → List (List Detection)
  | 0, cs => cs
  | fuel + 1, cs =>
    match mergeOnce m cs with
    | some cs' => mergeLoop m fuel cs'
    | none => cs

/-- Python `min` of a nonempty list (0 as an unused default for `[]`). -/
def listMin : List ℤ → ℤ
  | [] => 0
  | v :: vs => vs.foldl min v

/-- Python `max` of a nonempty list (0 as an unused default for `[]`). -/
def listMax : List ℤ → ℤ
  | [] => 0
  | v :: vs => vs.foldl max v

/-- Conversion of one final cluster back to a `Detection`: a singleton
cluster yields the original object; otherwise bounding boxes are united,
areas summed, density/tightness/centroid averaged (unweighted). -/
def mergeCluster (cluster : List Detection) : Detection :=
  match cluster with
  | [d] => d
  | _ =>
    { bbox := BBox.mk
        (listMin (cluster.map (fun d => d.bbox.x)))
        (listMin (cluster.map (fun d => d.bbox.y)))
        (listMax (cluster.map (fun d => d.bbox.x + d.bbox.w)) -
          listMin (cluster.map (fun d => d.bbox.x)))
        (listMax (cluster.map (fun d => d.bbox.y + d.bbox.h)) -
          listMin (cluster.map (fun d => d.bbox.y)))
      area := (cluster.map (fun d => d.area)).sum
      density := (cluster.map (fun d => d.density)).sum / cluster.length
      tightness := (cluster.map (fun d => d.tightness)).sum / cluster.length
      centroid := clusterCentroid cluster }

/-- `cluster_detections` (`metrics.py`): agglomerative merging of detections
whose cluster centroids are closer than `merge_distance`. -/
def cluster_detections (detections : List Detection) (merge_distance : ℚ) :
    List Detection :=
  if detections.length ≤ 1 then detections
  else (mergeLoop merge_distance detections.length
    (detections.map (fun d => [d]))).map mergeCluster

theorem mergeCluster_singleton (d : Detection) : mergeCluster [d] = d := rfl

theorem clusterCentroid_singleton (d : Detection) : clusterCentroid [d] = d.centroid := by
  simp [clusterCentroid]

theorem findMatch_none_of {M : ℚ} {c : List Detection} {cs : List (List Detection)}
    (h : ∀ c2 ∈ cs, mergeCond M c c2 = false) : findMatch M c cs = none := by
  induction cs with
  | nil => rfl
  | cons c2 rest ih =>
    simp only [findMatch, h c2 (List.mem_cons_self c2 rest), Bool.false_eq_true, if_false]
    rw [ih (fun c3 hc3 => h c3 (List.mem_cons_of_mem c2 hc3))]
    rfl

theorem mergeOnce_none_of {M : ℚ} {cs : List (List Detection)}
    (h : cs.Pairwise (fun c1 c2 => mergeCond M c1 c2 = false)) : mergeOnce M cs = none := by
  induction cs with
  | nil => rfl
  | cons c rest ih =>
    rcases List.pairwise_cons.mp h with ⟨hc, hrest⟩
    simp only [mergeOnce, findMatch_none_of hc]
    rw [ih hrest]
    rfl

theorem mergeLoop_none {M : ℚ} {cs : List (List Detection)} (fuel : ℕ)
    (h : mergeOnce M cs = none) : mergeLoop M fuel cs = cs := by
  cases fuel with
  | zero => rfl
  | succ fuel => simp only [mergeLoop, h]

theorem map_mergeCluster_singletons (dets : List Detection) :
    ((dets.map (fun d => [d])).map mergeCluster) = dets := by
  induction dets with
  | nil => rfl
  | cons d rest ih => simp only [List.map_cons, mergeCluster_singleton, ih]

theorem lsum_map_sub (c : ℚ) (l : List ℚ) :
    (l.map (fun v => c - v)).sum = l.length * c - l.sum := by
  induction l with
  | nil => simp
  | cons x xs ih =>
    simp only [List.map_cons, List.sum_cons, ih, List.length_cons]
    push_cast
    ring

theorem lsum_map_const {α : Type} (c : ℚ) (l : List α) :
    (l.map (fun _ => c)).sum = l.length * c := by
  induction l with
  | nil => simp
  | cons x xs ih =>
    simp only [List.map_cons, List.sum_cons, ih, List.length_cons]
    push_cast
    ring

/-- Cauchy–Schwarz for list sums: `(Σ l)² ≤ |l| · Σ l²`. -/
theorem sq_sum_le_length_mul_sum_sq (l : List ℚ) :
    l.sum ^ 2 ≤ l.length * (l.map (fun v => v ^ 2)).sum := by
  induction l with
  | nil => simp
  | cons x xs ih =>
    simp only [List.sum_cons, List.map_cons, List.length_cons]
    have h2 : (xs.map (fun v => 2 * x * v)).sum ≤ (xs.map (fun v => x ^ 2 + v ^ 2)).sum :=
      List.sum_le_sum (fun v _ => two_mul_le_add_sq x v)
    have e1 : (xs.map (fun v => 2 * x * v)).sum = 2 * x * xs.sum := by
      rw [List.sum_map_mul_left]
      simp
    have e2 : (xs.map (fun v => x ^ 2 + v ^ 2)).sum =
        xs.length * x ^ 2 + (xs.map (fun v => v ^ 2)).sum := by
      rw [List.sum_map_add, lsum_map_const]
    rw [e1, e2] at h2
    push_cast
    nlinarith [ih, h2]

theorem lsum_lt_length_mul {l : List ℚ} {c : ℚ} (hne : l ≠ []) (h : ∀ x ∈ l, x < c) :
    l.sum < l.length * c := by
  induction l with
  | nil => exact absurd rfl hne
  | cons x xs ih =>
    rcases eq_or_ne xs [] with hxs | hxs
    · subst hxs
      have := h x (List.mem_cons_self x [])
      simpa using this
    · have h1 := ih hxs (fun v hv => h v (List.mem_cons_of_mem _ hv))
      have h2 := h x (List.mem_cons_self _ _)
      simp only [List.sum_cons, List.length_cons]
      push_cast
      linarith

theorem flatMap_sub_sum {α β : Type} (P : List α) (Q : List β) (f : α → ℚ) (g : β → ℚ) :
    (P.flatMap (fun p => Q.map (fun q => f p - g q))).sum =
      (Q.length : ℚ) * (P.map f).sum - (P.length : ℚ) * (Q.map g).sum := by
  induction P with
  | nil => simp
  | cons p ps ih =>
    simp only [List.flatMap_cons, List.sum_append, ih, List.map_cons, List.sum_cons,
      List.length_cons]
    have e1 : (Q.map (fun q => f p - g q)).sum = (Q.length : ℚ) * f p - (Q.map g).sum := by
      have e0 : (Q.map (fun q => f p - g q)) = ((Q.map g).map (fun v => f p - v)) := by
        rw [List.map_map]
        rfl
      rw [e0, lsum_map_sub]
      simp
    rw [e1]
    push_cast
    ring

theorem flatMap_map_length {α β γ : Type} (P : List α) (Q : List β) (f : α → β → γ) :
    (P.flatMap (fun p => Q.map (f p))).length = P.length * Q.length := by
  induction P with
  | nil => simp
  | cons p ps ih =>
    simp only [List.flatMap_cons, List.length_append, List.length_map, ih, List.length_cons]
    ring

/-- Key geometric fact behind full collapse: if every point of `c1` is within
(squared) distance `M2` of every point of `c2`, then so are their centroids
(means are convex combinations; Cauchy–Schwarz). -/
theorem sqDist_clusterCentroid_lt {M2 : ℚ} {c1 c2 : List Detection}
    (h1 : c1 ≠ []) (h2 : c2 ≠ [])
    (h : ∀ a ∈ c1, ∀ b ∈ c2, sqDist a.centroid b.centroid < M2) :
    sqDist (clusterCentroid c1) (clusterCentroid c2) < M2 := by
  have hn : 0 < c1.length := List.length_pos.mpr h1
  have hm : 0 < c2.length := List.length_pos.mpr h2
  have hnq : (0 : ℚ) < (c1.length : ℚ) := by exact_mod_cast hn
  have hmq : (0 : ℚ) < (c2.length : ℚ) := by exact_mod_cast hm
  set E : List (ℚ × ℚ) := c1.flatMap (fun a => c2.map (fun b =>
    (a.centroid.1 - b.centroid.1, a.centroid.2 - b.centroid.2))) with hE
  have hElen : E.length = c1.length * c2.length := flatMap_map_length c1 c2 _
  have hEne : E ≠ [] := by
    rw [← List.length_pos, hElen]
    exact Nat.mul_pos hn hm
  have hEfst : (E.map Prod.fst).sum =
      (c2.length : ℚ) * (c1.map (fun d => d.centroid.1)).sum -
        (c1.length : ℚ) * (c2.map (fun d => d.centroid.1)).sum := by
    have e0 : E.map Prod.fst =
        c1.flatMap (fun a => c2.map (fun b => a.centroid.1 - b.centroid.1)) := by
      rw [hE, List.map_flatMap]
      congr 1
      funext a
      rw [List.map_map]
      rfl
    rw [e0, flatMap_sub_sum]
  have hEsnd : (E.map Prod.snd).sum =
      (c2.length : ℚ) * (c1.map (fun d => d.centroid.2)).sum -
        (c1.length : ℚ) * (c2.map (fun d => d.centroid.2)).sum := by
    have e0 : E.map Prod.snd =
        c1.flatMap (fun a => c2.map (fun b => a.centroid.2 - b.centroid.2)) := by
      rw [hE, List.map_flatMap]
      congr 1
      funext a
      rw [List.map_map]
      rfl
    rw [e0, flatMap_sub_sum]
  have hsq : ∀ e ∈ E, e.1 ^ 2 + e.2 ^ 2 < M2 := by
    intro e he
    rw [hE, List.mem_flatMap] at he
    rcases he with ⟨a, ha, he⟩
    rw [List.mem_map] at he
    rcases he with ⟨b, hb, he⟩
    have := h a ha b hb
    rw [sqDist] at this
    rw [← he]
    exact this
  have hsum_lt : (E.map (fun e => e.1 ^ 2 + e.2 ^ 2)).sum <
      ((c1.length : ℚ) * (c2.length : ℚ)) * M2 := by
    have := @lsum_lt_length_mul (E.map (fun e => e.1 ^ 2 + e.2 ^ 2)) M2
      (by simpa using hEne)
      (by intro v hv
          rw [List.mem_map] at hv
          rcases hv with ⟨e, he, hv⟩
          rw [← hv]
          exact hsq e he)
    rw [List.length_map, hElen] at this
    push_cast at this
    exact this
  have hsplit : (E.map (fun e => e.1 ^ 2 + e.2 ^ 2)).sum =
      (E.map (fun e => e.1 ^ 2)).sum + (E.map (fun e => e.2 ^ 2)).sum :=
    List.sum_map_add
  have hCS1 : ((E.map Prod.fst).sum) ^ 2 ≤
      ((c1.length : ℚ) * (c2.length : ℚ)) * (E.map (fun e => e.1 ^ 2)).sum := by
    have := sq_sum_le_length_mul_sum_sq (E.map Prod.fst)
    rw [List.length_map, hElen, List.map_map] at this
    push_cast at this
    calc ((E.map Prod.fst).sum) ^ 2 ≤
        ((c1.length : ℚ) * (c2.length : ℚ)) * ((E.map ((fun v => v ^ 2) ∘ Prod.fst)).sum) :=
          this
      _ = ((c1.length : ℚ) * (c2.length : ℚ)) * (E.map (fun e => e.1 ^ 2)).sum := rfl
  have hCS2 : ((E.map Prod.snd).sum) ^ 2 ≤
      ((c1.length : ℚ) * (c2.length : ℚ)) * (E.map (fun e => e.2 ^ 2)).sum := by
    have := sq_sum_le_length_mul_sum_sq (E.map Prod.snd)
    rw [List.length_map, hElen, List.map_map] at this
    push_cast at this
    calc ((E.map Prod.snd).sum) ^ 2 ≤
        ((c1.length : ℚ) * (c2.length : ℚ)) * ((E.map ((fun v => v ^ 2) ∘ Prod.snd)).sum) :=
          this
      _ = ((c1.length : ℚ) * (c2.length : ℚ)) * (E.map (fun e => e.2 ^ 2)).sum := rfl
  set nm : ℚ := (c1.length : ℚ) * (c2.length : ℚ) with hnm
  have hnmpos : 0 < nm := mul_pos hnq hmq
  have hkey : ((E.map Prod.fst).sum) ^ 2 + ((E.map Prod.snd).sum) ^ 2 < nm ^ 2 * M2 := by
    have ha : ((E.map Prod.fst).sum) ^ 2 + ((E.map Prod.snd).sum) ^ 2 ≤
        nm * ((E.map (fun e => e.1 ^ 2)).sum + (E.map (fun e => e.2 ^ 2)).sum) := by
      rw [mul_add]
      exact add_le_add hCS1 hCS2
    have hb : nm * ((E.map (fun e => e.1 ^ 2)).sum + (E.map (fun e => e.2 ^ 2)).sum) <
        nm * (nm * M2) := by
      apply mul_lt_mul_of_pos_left _ hnmpos
      rw [← hsplit]
      exact hsum_lt
    calc ((E.map Prod.fst).sum) ^ 2 + ((E.map Prod.snd).sum) ^ 2 ≤ _ := ha
      _ < nm * (nm * M2) := hb
      _ = nm ^ 2 * M2 := by ring
  rw [sqDist, clusterCentroid, clusterCentroid]
  have hmean1 : (c1.map (fun d => d.centroid.1)).sum / (c1.length : ℚ) -
      (c2.map (fun d => d.centroid.1)).sum / (c2.length : ℚ) =
      (E.map Prod.fst).sum / nm := by
    rw [hEfst, hnm]
    field_simp
    ring
  have hmean2 : (c1.map (fun d => d.centroid.2)).sum / (c1.length : ℚ) -
      (c2.map (fun d => d.centroid.2)).sum / (c2.length : ℚ) =
      (E.map Prod.snd).sum / nm := by
    rw [hEsnd, hnm]
    field_simp
    ring
  simp only
  rw [hmean1, hmean2, div_pow, div_pow, div_add_div_same, div_lt_iff₀ (by positivity)]
  calc ((E.map Prod.fst).sum) ^ 2 + ((E.map Prod.snd).sum) ^ 2 < nm ^ 2 * M2 := hkey
    _ = M2 * nm ^ 2 := by ring

theorem foldl_min_le (xs : List ℤ) (a : ℤ) :
    xs.foldl min a ≤ a ∧ ∀ x ∈ xs, xs.foldl min a ≤ x := by
  induction xs generalizing a with
  | nil => exact ⟨le_refl a, by simp⟩
  | cons y ys ih =>
    refine ⟨((ih (min a y)).1).trans (min_le_left a y), ?_⟩
    intro x hx
    rcases List.mem_cons.mp hx with hx | hx
    · rw [hx]
      exact ((ih (min a y)).1).trans (min_le_right a y)
    · exact (ih (min a y)).2 x hx

theorem foldl_min_mem (xs : List ℤ) (a : ℤ) :
    xs.foldl min a = a ∨ xs.foldl min a ∈ xs := by
  induction xs generalizing a with
  | nil => exact Or.inl rfl
  | cons y ys ih =>
    rcases ih (min a y) with h | h
    · rcases min_choice a y with hm | hm
      · exact Or.inl (by rw [List.foldl_cons, h, hm])
      · exact Or.inr (by rw [List.foldl_cons, h, hm]; exact List.mem_cons_self y ys)
    · exact Or.inr (List.mem_cons_of_mem y h)

theorem listMin_spec {l : List ℤ} (h : l ≠ []) :
    listMin l ∈ l ∧ ∀ x ∈ l, listMin l ≤ x := by
  match l with
  | [] => exact absurd rfl h
  | v :: vs =>
    constructor
    · rcases foldl_min_mem vs v with h1 | h1
      · rw [listMin, h1]
        exact List.mem_cons_self v vs
      · exact List.mem_cons_of_mem v h1
    · intro x hx
      rcases List.mem_cons.mp hx with hx | hx
      · rw [hx, listMin]
        exact (foldl_min_le vs v).1
      · exact (foldl_min_le vs v).2 x hx

theorem listMin_eq_of_perm {l l' : List ℤ} (hp : l.Perm l') : listMin l = listMin l' := by
  rcases eq_or_ne l [] with h | h
  · subst h
    rw [(hp.symm.eq_nil : l' = [])]
  · have h' : l' ≠ [] := by
      intro hc
      subst hc
      exact h hp.eq_nil
    rcases listMin_spec h with ⟨hm1, hle1⟩
    rcases listMin_spec h' with ⟨hm2, hle2⟩
    exact le_antisymm (hle1 _ (hp.mem_iff.mpr hm2)) (hle2 _ (hp.mem_iff.mp hm1))

theorem foldl_max_le (xs : List ℤ) (a : ℤ) :
    a ≤ xs.foldl max a ∧ ∀ x ∈ xs, x ≤ xs.foldl max a := by
  induction xs generalizing a with
  | nil => exact ⟨le_refl a, by simp⟩
  | cons y ys ih =>
    refine ⟨(le_max_left a y).trans (ih (max a y)).1, ?_⟩
    intro x hx
    rcases List.mem_cons.mp hx with hx | hx
    · rw [hx]
      exact (le_max_right a y).trans (ih (max a y)).1
    · exact (ih (max a y)).2 x hx

theorem foldl_max_mem (xs : List ℤ) (a : ℤ) :
    xs.foldl max a = a ∨ xs.foldl max a ∈ xs := by
  induction xs generalizing a with
  | nil => exact Or.inl rfl
  | cons y ys ih =>
    rcases ih (max a y) with h | h
    · rcases max_choice a y with hm | hm
      · exact Or.inl (by rw [List.foldl_cons, h, hm])
      · exact Or.inr (by rw [List.foldl_cons, h, hm]; exact List.mem_cons_self y ys)
    · exact Or.inr (List.mem_cons_of_mem y h)

theorem listMax_spec {l : List ℤ} (h : l ≠ []) :
    listMax l ∈ l ∧ ∀ x ∈ l, x ≤ listMax l := by
  match l with
  | [] => exact absurd rfl h
  | v :: vs =>
    constructor
    · rcases foldl_max_mem vs v with h1 | h1
      · rw [listMax, h1]
        exact List.mem_cons_self v vs
      · exact List.mem_cons_of_mem v h1
    · intro x hx
      rcases List.mem_cons.mp hx with hx | hx
      · rw [hx, listMax]
        exact (foldl_max_le vs v).1
      · exact (foldl_max_le vs v).2 x hx

theorem listMax_eq_of_perm {l l' : List ℤ} (hp : l.Perm l') : listMax l = listMax l' := by
  rcases eq_or_ne l [] with h | h
  · subst h
    rw [(hp.symm.eq_nil : l' = [])]
  · have h' : l' ≠ [] := by
      intro hc
      subst hc
      exact h hp.eq_nil
    rcases listMax_spec h with ⟨hm1, hle1⟩
    rcases listMax_spec h' with ⟨hm2, hle2⟩
    exact le_antisymm (hle2 _ (hp.mem_iff.mp hm1)) (hle1 _ (hp.mem_iff.mpr hm2))

theorem mergeCond_eq_true {M : ℚ} {c1 c2 : List Detection} (hM : 0 < M)
    (h1 : c1 ≠ []) (h2 : c2 ≠ [])
    (h : ∀ a ∈ c1, ∀ b ∈ c2, sqDist a.centroid b.centroid < M ^ 2) :
    mergeCond M c1 c2 = true := by
  rw [mergeCond, decide_eq_true_iff]
  exact ⟨hM, sqDist_clusterCentroid_lt h1 h2 h⟩

theorem mergeOnce_cons_cons {M : ℚ} {c1 c2 : List Detection}
    {rest : List (List Detection)} (h : mergeCond M c1 c2 = true) :
    mergeOnce M (c1 :: c2 :: rest) = some ((c1 ++ c2) :: rest) := by
  simp [mergeOnce, findMatch, h]

theorem flatten_map_singleton {α : Type} (l : List α) :
    (l.map (fun a => [a])).flatten = l := by
  induction l with
  | nil => rfl
  | cons a rest ih => simp [ih]

/-- If every pair of detections is within `M`, the merge loop collapses any
family of nonempty clusters that partitions them into a single cluster. -/
theorem mergeLoop_collapses {M : ℚ} {dets : List Detection} (hM : 0 < M)
    (hall : ∀ a ∈ dets, ∀ b ∈ dets, sqDist a.centroid b.centroid < M ^ 2) :
    ∀ (fuel : ℕ) (cs : List (List Detection)),
      (∀ c ∈ cs, c ≠ []) → cs.flatten.Perm dets → cs ≠ [] →
      cs.length ≤ fuel + 1 →
      ∃ L, mergeLoop M fuel cs = [L] ∧ L.Perm dets := by
  intro fuel
  induction fuel with
  | zero =>
    intro cs hne hperm hcs hlen
    match cs with
    | [] => exact absurd rfl hcs
    | [L] =>
      refine ⟨L, rfl, ?_⟩
      simpa using hperm
    | a :: b :: t => simp at hlen
  | succ fuel ih =>
    intro cs hne hperm hcs hlen
    match cs with
    | [] => exact absurd rfl hcs
    | [L] =>
      have hnone : mergeOnce M [L] = none := by
        simp [mergeOnce, findMatch]
      refine ⟨L, ?_, by simpa using hperm⟩
      simp only [mergeLoop, hnone]
    | c1 :: c2 :: rest =>
      have h1 : c1 ≠ [] := hne _ (by simp)
      have h2 : c2 ≠ [] := hne _ (by simp)
      have hmem : ∀ c ∈ (c1 :: c2 :: rest), ∀ a ∈ c, a ∈ dets := by
        intro c hc a ha
        exact hperm.mem_iff.mp (List.mem_flatten.mpr ⟨c, hc, ha⟩)
      have hcond : mergeCond M c1 c2 = true :=
        mergeCond_eq_true hM h1 h2 (fun a ha b hb =>
          hall a (hmem c1 (by simp) a ha) b (hmem c2 (by simp [List.mem_cons]) b hb))
      have hstep : mergeLoop M (fuel + 1) (c1 :: c2 :: rest) =
          mergeLoop M fuel ((c1 ++ c2) :: rest) := by
        simp only [mergeLoop, mergeOnce_cons_cons hcond]
      rw [hstep]
      apply ih
      · intro c hc
        rcases List.mem_cons.mp hc with hc | hc
        · rw [hc]
          intro hcc
          exact h1 (List.append_eq_nil.mp hcc).1
        · exact hne c (List.mem_cons_of_mem c1 (List.mem_cons_of_mem c2 hc))
      · have e : ((c1 ++ c2) :: rest).flatten = (c1 :: c2 :: rest).flatten := by
          simp [List.append_assoc]
        rw [e]
        exact hperm
      · simp
      · simp only [List.length_cons] at hlen ⊢
        omega

theorem clusterCentroid_perm {l l' : List Detection} (hp : l.Perm l') :
    clusterCentroid l = clusterCentroid l' := by
  unfold clusterCentroid
  rw [(hp.map (fun d => d.centroid.1)).sum_eq, (hp.map (fun d => d.centroid.2)).sum_eq,
    hp.length_eq]

/-- C7: (i) if no pair of detections has centroid distance strictly below
`merge_distance`, `cluster_detections` returns its input unchanged; (ii) if
`merge_distance` is positive and strictly exceeds every pairwise centroid
distance, the result is a single detection whose bounding box is the union of
the input boxes, whose area is the sum of the areas, and whose density,
tightness and centroid are the unweighted means over the inputs. -/
theorem cluster_detections_spec (dets : List Detection) (M : ℚ) :
    (dets.Pairwise (fun a b => ¬(0 < M ∧ sqDist a.centroid b.centroid < M ^ 2)) →
      cluster_detections dets M = dets) ∧
    (0 < M → (∀ a ∈ dets, ∀ b ∈ dets, sqDist a.centroid b.centroid < M ^ 2) →
      dets ≠ [] →
      ∃ D, cluster_detections dets M = [D] ∧
        D.area = (dets.map (fun d => d.area)).sum ∧
        D.density = (dets.map (fun d => d.density)).sum / dets.length ∧
        D.tightness = (dets.map (fun d => d.tightness)).sum / dets.length ∧
        D.centroid = clusterCentroid dets ∧
        D.bbox.x = listMin (dets.map (fun d => d.bbox.x)) ∧
        D.bbox.y = listMin (dets.map (fun d => d.bbox.y)) ∧
        D.bbox.w = listMax (dets.map (fun d => d.bbox.x + d.bbox.w)) -
          listMin (dets.map (fun d => d.bbox.x)) ∧
        D.bbox.h = listMax (dets.map (fun d => d.bbox.y + d.bbox.h)) -
          listMin (dets.map (fun d => d.bbox.y))) := by
  constructor
  · intro h
    by_cases hlen : dets.length ≤ 1
    · rw [cluster_detections, if_pos hlen]
    · rw [cluster_detections, if_neg hlen, mergeLoop_none, map_mergeCluster_singletons]
      apply mergeOnce_none_of
      rw [List.pairwise_map]
      refine List.Pairwise.imp ?_ h
      intro a b hab
      rw [mergeCond, clusterCentroid_singleton, clusterCentroid_singleton,
        decide_eq_false_iff_not]
      exact hab
  · intro hM hall hne
    by_cases hlen : dets.length ≤ 1
    · match dets, hne with
      | [d], _ =>
        refine ⟨d, ?_, by simp, by simp, by simp, (clusterCentroid_singleton d).symm,
          rfl, rfl, ?_, ?_⟩
        · rw [cluster_detections, if_pos (by simp)]
        · show d.bbox.w = (d.bbox.x + d.bbox.w) - d.bbox.x
          ring
        · show d.bbox.h = (d.bbox.y + d.bbox.h) - d.bbox.y
          ring
      | a :: b :: t, _ => simp at hlen
    · rw [cluster_detections, if_neg hlen]
      obtain ⟨L, hL, hperm⟩ := mergeLoop_collapses hM hall dets.length
        (dets.map (fun d => [d]))
        (by
          intro c hc
          rw [List.mem_map] at hc
          rcases hc with ⟨d, _, hc⟩
          rw [← hc]
          simp)
        (by rw [flatten_map_singleton])
        (by simpa using hne)
        (by simp)
      rw [hL]
      have hLlen : 2 ≤ L.length := by
        rw [hperm.length_eq]
        omega
      match L, hLlen, hperm with
      | a :: b :: t, _, hperm =>
        refine ⟨mergeCluster (a :: b :: t), rfl, ?_, ?_, ?_, ?_, ?_, ?_, ?_, ?_⟩
        · show ((a :: b :: t).map (fun d => d.area)).sum = _
          exact (hperm.map (fun d => d.area)).sum_eq
        · show ((a :: b :: t).map (fun d => d.density)).sum / ((a :: b :: t).length : ℚ) = _
          rw [(hperm.map (fun d => d.density)).sum_eq, hperm.length_eq]
        · show ((a :: b :: t).map (fun d => d.tightness)).sum / ((a :: b :: t).length : ℚ) = _
          rw [(hperm.map (fun d => d.tightness)).sum_eq, hperm.length_eq]
        · exact clusterCentroid_perm hperm
        · show listMin ((a :: b :: t).map (fun d => d.bbox.x)) = _
          exact listMin_eq_of_perm (hperm.map (fun d => d.bbox.x))
        · show listMin ((a :: b :: t).map (fun d => d.bbox.y)) = _
          exact listMin_eq_of_perm (hperm.map (fun d => d.bbox.y))
        · show listMax ((a :: b :: t).map (fun d => d.bbox.x + d.bbox.w)) -
            listMin ((a :: b :: t).map (fun d => d.bbox.x)) = _
          rw [listMax_eq_of_perm (hperm.map (fun d => d.bbox.x + d.bbox.w)),
            listMin_eq_of_perm (hperm.map (fun d => d.bbox.x))]
        · show listMax ((a :: b :: t).map (fun d => d.bbox.y + d.bbox.h)) -
            listMin ((a :: b :: t).map (fun d => d.bbox.y)) = _
          rw [listMax_eq_of_perm (hperm.map (fun d => d.bbox.y + d.bbox.h)),
            listMin_eq_of_perm (hperm.map (fun d => d.bbox.y))]

theorem cluster_detections_spec_witness :
    cluster_detections
      [Detection.mk (BBox.mk 0 0 10 10) 100 200 (1 / 2) (5, 5),
       Detection.mk (BBox.mk 20 0 10 10) 50 100 (1 / 4) (25, 5)] 10 =
      [Detection.mk (BBox.mk 0 0 10 10) 100 200 (1 / 2) (5, 5),
       Detection.mk (BBox.mk 20 0 10 10) 50 100 (1 / 4) (25, 5)] ∧
    ∃ D, cluster_detections
      [Detection.mk (BBox.mk 0 0 10 10) 100 200 (1 / 2) (5, 5),
       Detection.mk (BBox.mk 20 0 10 10) 50 100 (1 / 4) (25, 5)] 30 = [D] ∧
      D.area = 150 := by
  constructor
  · exact (cluster_detections_spec _ 10).1 (by
      refine List.Pairwise.cons ?_ (List.pairwise_singleton _ _)
      intro b hb
      rw [List.mem_singleton] at hb
      subst hb
      norm_num [sqDist])
  · obtain ⟨D, hD, hA, _⟩ := (cluster_detections_spec
      [Detection.mk (BBox.mk 0 0 10 10) 100 200 (1 / 2) (5, 5),
       Detection.mk (BBox.mk 20 0 10 10) 50 100 (1 / 4) (25, 5)] 30).2
      (by norm_num)
      (by
        intro a ha b hb
        fin_cases ha <;> fin_cases hb <;> norm_num [sqDist])
      (by simp)
    refine ⟨D, hD, ?_⟩
    rw [hA]
    norm_num

/-! ## Recommendation engine (`app.py`, `SonarAssist._generate_recommendation`) -/

/-- Result of `GroqCV.analyze` as consumed by the recommendation code
(`groq_result['class']` and `groq_result['confidence']`). -/
structure GroqResult where
  cls : String
  confidence : ℚ

/-- The configuration values read by `_generate_recommendation`:
`config['cv']['density_thr']`, `config['decision']['tight_school_compactness']`
and `config['speech']['min_confidence']`. -/
structure RecommendationConfig where
  density_thr : ℚ
  tight_school_compactness : ℚ
  min_confidence : ℚ

/-- The cue composed by `_generate_recommendation`, kept structured: the
Python code renders these with f-strings; the claims concern which branch is
taken and from which detection/depth the cue is built. -/
inductive RecommendationCue where
  | dismiss (label : String)
  | dropAndHold (depth : ℚ)
  | trollThrough (depth : ℚ) (density_class : String)
  | worthChecking (depth : ℚ)
deriving DecidableEq

/-- The depth a cue mentions, if any. -/
def RecommendationCue.cueDepth : RecommendationCue → Option ℚ
  | .dismiss _ => none
  | .dropAndHold depth => some depth
  | .trollThrough depth _ => some depth
  | .worthChecking depth => some depth

/-- Python `max(iterable, key=k)` on a nonempty list (head plus rest): keeps
the first maximal element (a later element wins only when strictly greater). -/
def pyMaxBy (k : Detection → ℚ) (d : Detection) (rest : List Detection) : Detection :=
  rest.foldl (fun best a => if k best < k a then a else best) d

/-- The scoring tail of `_generate_recommendation` (everything after the
Groq-based early return), on a nonempty detection list `d0 :: rest`. -/
def score_recommendation (cfg : RecommendationConfig) (calib : DepthMap)
    (d0 : Detection) (rest : List Detection) : Option RecommendationCue :=
  let best := pyMaxBy (fun d => d.area * d.tightness) d0 rest
  let size := calculate_school_size best
  let density_class := classify_density best.density cfg.density_thr
  let depth_ft := pixel_to_depth calib best.mid_y
  if best.tightness * (best.density / 255) < cfg.min_confidence then none
  else if size = "large" ∧ cfg.tight_school_compactness ≤ best.tightness then
    some (.dropAndHold depth_ft)
  else if size = "medium" ∨ size = "large" then
    some (.trollThrough depth_ft density_class)
  else some (.worthChecking depth_ft)

/-- `SonarAssist._generate_recommendation`: `None` on an empty detection
list; an early dismissive cue when the remote classification says
debris/thermocline with confidence above 0.6; otherwise the scoring tail.
(The `tracked_objects` argument of the Python method is unused by its body
and omitted.) -/
def generate_recommendation (cfg : RecommendationConfig) (calib : DepthMap)
    (detections : List Detection) (groq_result : Option GroqResult) :
    Option RecommendationCue :=
  match detections with
  | [] => none
  | d0 :: rest =>
    match groq_result with
    | some gr =>
      if gr.cls = "debris" ∨ gr.cls = "thermocline" then
        if (6 / 10 : ℚ) < gr.confidence then some (.dismiss gr.cls)
        else score_recommendation cfg calib d0 rest
      else score_recommendation cfg calib d0 rest
    | none => score_recommendation cfg calib d0 rest

theorem pyMaxBy_mem (k : Detection → ℚ) (d : Detection) (rest : List Detection) :
    pyMaxBy k d rest ∈ d :: rest := by
  induction rest generalizing d with
  | nil => simp [pyMaxBy]
  | cons a as ih =>
    rw [pyMaxBy, List.foldl_cons]
    have h2 := ih (if k d < k a then a else d)
    rw [pyMaxBy] at h2
    rcases List.mem_cons.mp h2 with h2 | h2
    · rw [show (as.foldl (fun best a => if k best < k a then a else best)
          (if k d < k a then a else d)) = (if k d < k a then a else d) from h2]
      split
      · exact List.mem_cons_of_mem d (List.mem_cons_self a as)
      · exact List.mem_cons_self d (a :: as)
    · exact List.mem_cons_of_mem d (List.mem_cons_of_mem a h2)

theorem pyMaxBy_le (k : Detection → ℚ) (d : Detection) (rest : List Detection) :
    ∀ a ∈ d :: rest, k a ≤ k (pyMaxBy k d rest) := by
  induction rest generalizing d with
  | nil =>
    intro a ha
    rw [List.mem_singleton] at ha
    subst ha
    simp [pyMaxBy]
  | cons b bs ih =>
    intro a ha
    have hres : pyMaxBy k d (b :: bs) = pyMaxBy k (if k d < k b then b else d) bs := rfl
    have hd1 : k d ≤ k (if k d < k b then b else d) := by
      split
      · linarith
      · exact le_refl _
    have hd2 : k b ≤ k (if k d < k b then b else d) := by
      split
      · exact le_refl _
      · linarith [not_lt.mp (by assumption)]
    have htop : k (if k d < k b then b else d) ≤ k (pyMaxBy k (if k d < k b then b else d) bs) :=
      ih _ _ (List.mem_cons_self _ bs)
    rw [hres]
    rcases List.mem_cons.mp ha with h | h
    · subst h
      exact hd1.trans htop
    · rcases List.mem_cons.mp h with h | h
      · subst h
        exact hd2.trans htop
      · exact ih _ a (List.mem_cons_of_mem _ h)

/-- C5: (i) no detections, no recommendation; (ii) a remote classification of
debris/thermocline with confidence strictly above 0.6 yields the dismissive
cue naming that label, with no further scoring; (iii) otherwise the chosen
detection `best` maximizes `area × tightness` over the list (it is a member
attaining the maximum), the result is `none` whenever
`best.tightness * (best.density / 255)` is below the configured minimum
speech confidence, and otherwise a cue built at `best`'s calibrated depth. -/
theorem generate_recommendation_spec (cfg : RecommendationConfig) (calib : DepthMap) :
    (∀ groq, generate_recommendation cfg calib [] groq = none) ∧
    (∀ (d0 : Detection) (rest : List Detection) (gr : GroqResult),
      (gr.cls = "debris" ∨ gr.cls = "thermocline") → (6 / 10 : ℚ) < gr.confidence →
      generate_recommendation cfg calib (d0 :: rest) (some gr) =
        some (.dismiss gr.cls)) ∧
    (∀ (d0 : Detection) (rest : List Detection) (groq : Option GroqResult),
      (∀ gr, groq = some gr →
        ¬((gr.cls = "debris" ∨ gr.cls = "thermocline") ∧ (6 / 10 : ℚ) < gr.confidence)) →
      (pyMaxBy (fun d => d.area * d.tightness) d0 rest ∈ d0 :: rest) ∧
      (∀ a ∈ d0 :: rest, a.area * a.tightness ≤
        (pyMaxBy (fun d => d.area * d.tightness) d0 rest).area *
          (pyMaxBy (fun d => d.area * d.tightness) d0 rest).tightness) ∧
      ((pyMaxBy (fun d => d.area * d.tightness) d0 rest).tightness *
          ((pyMaxBy (fun d => d.area * d.tightness) d0 rest).density / 255) <
            cfg.min_confidence →
        generate_recommendation cfg calib (d0 :: rest) groq = none) ∧
      (¬ ((pyMaxBy (fun d => d.area * d.tightness) d0 rest).tightness *
          ((pyMaxBy (fun d => d.area * d.tightness) d0 rest).density / 255) <
            cfg.min_confidence) →
        ∃ cue, generate_recommendation cfg calib (d0 :: rest) groq = some cue ∧
          cue.cueDepth = some (pixel_to_depth calib
            (pyMaxBy (fun d => d.area * d.tightness) d0 rest).mid_y))) := by
  have hScore : ∀ (d0 : Detection) (rest : List Detection) (groq : Option GroqResult),
      (∀ gr, groq = some gr →
        ¬((gr.cls = "debris" ∨ gr.cls = "thermocline") ∧ (6 / 10 : ℚ) < gr.confidence)) →
      generate_recommendation cfg calib (d0 :: rest) groq =
        score_recommendation cfg calib d0 rest := by
    intro d0 rest groq hng
    match groq with
    | none => rfl
    | some gr =>
      have := hng gr rfl
      rw [generate_recommendation]
      by_cases hc : gr.cls = "debris" ∨ gr.cls = "thermocline"
      · rw [if_pos hc, if_neg (fun hconf => this ⟨hc, hconf⟩)]
      · rw [if_neg hc]
  refine ⟨fun _ => rfl, ?_, ?_⟩
  · intro d0 rest gr hcls hconf
    rw [generate_recommendation, if_pos hcls, if_pos hconf]
  · intro d0 rest groq hng
    refine ⟨pyMaxBy_mem _ d0 rest, pyMaxBy_le _ d0 rest, ?_, ?_⟩
    · intro hlow
      rw [hScore d0 rest groq hng, score_recommendation, if_pos hlow]
    · intro hhigh
      rw [hScore d0 rest groq hng, score_recommendation, if_neg hhigh]
      split
      · exact ⟨_, rfl, rfl⟩
      · split
        · exact ⟨_, rfl, rfl⟩
        · exact ⟨_, rfl, rfl⟩

theorem generate_recommendation_spec_witness :
    generate_recommendation (RecommendationConfig.mk 140 (7 / 10) (1 / 2))
      (DepthMap.mk 50 650 0 100)
      [Detection.mk (BBox.mk 0 0 10 10) 100 100 (1 / 10) (5, 5)]
      (some (GroqResult.mk "debris" (7 / 10))) =
      some (.dismiss "debris") ∧
    generate_recommendation (RecommendationConfig.mk 140 (7 / 10) (1 / 2))
      (DepthMap.mk 50 650 0 100)
      [Detection.mk (BBox.mk 0 0 10 10) 100 100 (1 / 10) (5, 5)] none = none :=
  ⟨(generate_recommendation_spec (RecommendationConfig.mk 140 (7 / 10) (1 / 2))
      (DepthMap.mk 50 650 0 100)).2.1
      (Detection.mk (BBox.mk 0 0 10 10) 100 100 (1 / 10) (5, 5)) []
      (GroqResult.mk "debris" (7 / 10)) (Or.inl rfl) (by norm_num),
   ((generate_recommendation_spec (RecommendationConfig.mk 140 (7 / 10) (1 / 2))
      (DepthMap.mk 50 650 0 100)).2.2
      (Detection.mk (BBox.mk 0 0 10 10) 100 100 (1 / 10) (5, 5)) [] none
      (fun gr h => by simp at h)).2.2.1 (by norm_num [pyMaxBy])⟩

/-! ## Centroid tracker (`metrics.py`, class `CentroidTracker`)

The three `OrderedDict`s (`objects`, `disappeared`, `detections_history`)
are modelled as association lists in insertion order: updating the value of
an existing key keeps its position, `del` removes the entry, and fresh keys
are appended at the end — exactly the `OrderedDict` behaviour the code
relies on. -/

structure TrackerConfig where
  max_disappeared : ℕ
  max_distance : ℚ

structure TrackerState where
  next_object_id : ℕ
  objects : List (ℕ × (ℚ × ℚ))
  disappeared : List (ℕ × ℕ)
  detections_history : List (ℕ × List Detection)

/-- `CentroidTracker.__init__` (ignoring the configuration arguments, which
live in `TrackerConfig`). -/
def initTracker : TrackerState := TrackerState.mk 0 [] [] []

/-- Dictionary access `l[k]`. -/
def lookupKey {α : Type} (k : ℕ) (l : List (ℕ × α)) : Option α :=
  (l.find? (fun e => e.1 == k)).map Prod.snd

/-- `l[k] = v` for an existing key `k` (`OrderedDict` keeps its position). -/
def setKeyVal {α : Type} (k : ℕ) (v : α) (l : List (ℕ × α)) : List (ℕ × α) :=
  l.map (fun e => if e.1 = k then (k, v) else e)

/-- `del l[k]`. -/
def eraseKey {α : Type} (k : ℕ) (l : List (ℕ × α)) : List (ℕ × α) :=
  l.filter (fun e => decide (e.1 ≠ k))

/-- `CentroidTracker.register`. -/
def register (s : TrackerState) (c : ℚ × ℚ) (d : Detection) : TrackerState :=
  TrackerState.mk (s.next_object_id + 1)
    (s.objects ++ [(s.next_object_id, c)])
    (s.disappeared ++ [(s.next_object_id, 0)])
    (s.detections_history ++ [(s.next_object_id, [d])])

/-- `CentroidTracker.deregister`. -/
def deregister (s : TrackerState) (id : ℕ) : TrackerState :=
  TrackerState.mk s.next_object_id (eraseKey id s.objects) (eraseKey id s.disappeared)
    (eraseKey id s.detections_history)

/-- One aging step of `update`:
`self.disappeared[id] += 1; if self.disappeared[id] > self.max_disappeared:
self.deregister(id)`. -/
def ageOne (cfg : TrackerConfig) (s : TrackerState) (id : ℕ) : TrackerState :=
  let n := ((lookupKey id s.disappeared).getD 0) + 1
  let s' := TrackerState.mk s.next_object_id s.objects (setKeyVal id n s.disappeared)
    s.detections_history
  if cfg.max_disappeared < n then deregister s' id else s'

/-- The `len(detections) == 0` branch of `update`: age every id in the
snapshot `list(self.disappeared.keys())`. -/
def ageAll (cfg : TrackerConfig) (s : TrackerState) : TrackerState :=
  (s.disappeared.map Prod.fst).foldl (ageOne cfg) s

/-- Unreachable placeholder (the matching code only runs on a nonempty
detection list). -/
def defaultDetection : Detection := Detection.mk (BBox.mk 0 0 0 0) 0 0 0 (0, 0)

/-- `np.argmin` over one row of the distance matrix `D`: the first
(index, detection) pair minimizing the squared distance to centroid `c`,
together with that minimum (`D.min(axis=1)` for this row). -/
def argminEntry (c : ℚ × ℚ) (eds : List (ℕ × Detection)) : (ℕ × Detection) × ℚ :=
  match eds with
  | [] => ((0, defaultDetection), 0)
  | e0 :: rest =>
    rest.foldl (fun best e =>
      if sqDist c e.2.centroid < best.2 then (e, sqDist c e.2.centroid) else best)
      (e0, sqDist c e0.2.centroid)

/-- Stable insertion into a list sorted by `key` (strict comparison so that
an element inserted later, i.e. earlier in the original list, lands before
entries of equal key). -/
def insertSorted (key : ℕ × (ℚ × ℚ) → ℚ) (x : ℕ × (ℚ × ℚ)) :
    List (ℕ × (ℚ × ℚ)) → List (ℕ × (ℚ × ℚ))
  | [] => [x]
  | y :: ys => if key y < key x then y :: insertSorted key x ys else x :: y :: ys

/-- `rows = D.min(axis=1).argsort()`: the tracked rows in ascending order of
their minimum distance to any detection (stable sort; `np.argsort` leaves
tie order unspecified). -/
def sortRows (key : ℕ × (ℚ × ℚ) → ℚ) (l : List (ℕ × (ℚ × ℚ))) :
    List (ℕ × (ℚ × ℚ)) :=
  l.foldr (insertSorted key) []

/-- The matching loop of `update`: rows in ascending order of minimum
distance, each paired with its `argmin` column; a row is skipped when that
column is already used or when `D[row, col] > max_distance` (in squared
form: `max_distance < 0 ∨ max_distance² < D²`). The `row in used_rows` test
of the source never fires because `rows` is a permutation of distinct row
indices. -/
def greedyMatch (cfg : TrackerConfig) (eds : List (ℕ × Detection)) :
    List (ℕ × (ℚ × ℚ)) → List ℕ → List ((ℕ × (ℚ × ℚ)) × (ℕ × Detection))
  | [], _ => []
  | r :: rs, used =>
    let a := argminEntry r.2 eds
    if a.1.1 ∈ used ∨ (cfg.max_distance < 0 ∨ cfg.max_distance ^ 2 < a.2) then
      greedyMatch cfg eds rs used
    else (r, a.1) :: greedyMatch cfg eds rs (a.1.1 :: used)

/-- Application of one accepted match: store the new centroid, reset the
miss count, append the detection to the track history. -/
def applyMatch (s : TrackerState) (m : (ℕ × (ℚ × ℚ)) × (ℕ × Detection)) :
    TrackerState :=
  TrackerState.mk s.next_object_id
    (setKeyVal m.1.1 m.2.2.centroid s.objects)
    (setKeyVal m.1.1 0 s.disappeared)
    (setKeyVal m.1.1 (((lookupKey m.1.1 s.detections_history).getD []) ++ [m.2.2])
      s.detections_history)

/-- The value returned by `update`: each tracked id with the last detection
of its (nonempty) history. -/
def trackResults (s : TrackerState) : List (ℕ × Detection) :=
  s.objects.filterMap (fun e =>
    match lookupKey e.1 s.detections_history with
    | some h => h.getLast?.map (fun d => (e.1, d))
    | none => none)

/-- `rows = D.min(axis=1).argsort()` of `update`, as tracked entries. -/
def trackerRows (s : TrackerState) (dets : List Detection) : List (ℕ × (ℚ × ℚ)) :=
  sortRows (fun r => (argminEntry r.2 dets.enum).2) s.objects

/-- The accepted matches of `update`'s greedy loop. -/
def trackerMatches (cfg : TrackerConfig) (s : TrackerState) (dets : List Detection) :
    List ((ℕ × (ℚ × ℚ)) × (ℕ × Detection)) :=
  greedyMatch cfg dets.enum (trackerRows s dets) []

/-- `unused_rows` of `update` (as ids, in dictionary order). -/
def unmatchedRowIds (cfg : TrackerConfig) (s : TrackerState) (dets : List Detection) :
    List ℕ :=
  (s.objects.map Prod.fst).filter
    (fun id => decide (id ∉ (trackerMatches cfg s dets).map (fun m => m.1.1)))

/-- `unused_cols` of `update` (indexed detections, ascending index). -/
def unmatchedDetections (cfg : TrackerConfig) (s : TrackerState)
    (dets : List Detection) : List (ℕ × Detection) :=
  dets.enum.filter
    (fun e => decide (e.1 ∉ (trackerMatches cfg s dets).map (fun m => m.2.1)))

/-- `CentroidTracker.update`. -/
def CentroidTracker_update (cfg : TrackerConfig) (s : TrackerState)
    (dets : List Detection) : List (ℕ × Detection) × TrackerState :=
  if dets.length = 0 then
    ([], ageAll cfg s)
  else
    let s2 :=
      if s.objects.length = 0 then
        dets.foldl (fun st d => register st d.centroid d) s
      else
        let s3 := (trackerMatches cfg s dets).foldl applyMatch s
        let s4 := (unmatchedRowIds cfg s dets).foldl (ageOne cfg) s3
        (unmatchedDetections cfg s dets).foldl
          (fun st e => register st e.2.centroid e.2) s4
    (trackResults s2, s2)

/-- The public operations a `CentroidTracker` object exposes. -/
inductive TrackerOp where
  | reg (c : ℚ × ℚ) (d : Detection)
  | dereg (id : ℕ)
  | upd (dets : List Detection)

def applyOp (cfg : TrackerConfig) (op : TrackerOp) (s : TrackerState) : TrackerState :=
  match op with
  | .reg c d => register s c d
  | .dereg id => deregister s id
  | .upd dets => (CentroidTracker_update cfg s dets).2

/-- The ids currently tracked, in dictionary order. -/
def objKeys (s : TrackerState) : List ℕ := s.objects.map Prod.fst

/-- Id discipline: tracked ids strictly increase along the dictionary and
are all below the id counter. -/
def TrackerWF (s : TrackerState) : Prop :=
  List.Pairwise (· < ·) (objKeys s) ∧ ∀ id ∈ objKeys s, id < s.next_object_id

/-- Net effect of one operation on the id space: the counter never
decreases, and every tracked id afterwards is either an old id or fresh
(at least the old counter value). -/
def Stepped (s s' : TrackerState) : Prop :=
  s.next_object_id ≤ s'.next_object_id ∧
  ∀ id ∈ objKeys s', id ∈ objKeys s ∨ s.next_object_id ≤ id

theorem stepped_refl (s : TrackerState) : Stepped s s :=
  ⟨le_refl _, fun _ h => Or.inl h⟩

theorem stepped_trans {s s' s'' : TrackerState} (h1 : Stepped s s')
    (h2 : Stepped s' s'') : Stepped s s'' := by
  refine ⟨h1.1.trans h2.1, ?_⟩
  intro id hid
  rcases h2.2 id hid with h | h
  · exact h1.2 id h
  · exact Or.inr (h1.1.trans h)

theorem keys_setKeyVal {α : Type} (k : ℕ) (v : α) (l : List (ℕ × α)) :
    (setKeyVal k v l).map Prod.fst = l.map Prod.fst := by
  induction l with
  | nil => rfl
  | cons e t ih =>
    simp only [setKeyVal, List.map_cons] at ih ⊢
    split
    · rename_i he
      rw [ih]
      simp [← he]
    · rw [ih]

theorem eraseKey_sublist {α : Type} (k : ℕ) (l : List (ℕ × α)) :
    (eraseKey k l).Sublist l := List.filter_sublist l

theorem register_wf {s : TrackerState} (c : ℚ × ℚ) (d : Detection)
    (h : TrackerWF s) : TrackerWF (register s c d) ∧ Stepped s (register s c d) := by
  have hkeys : objKeys (register s c d) = objKeys s ++ [s.next_object_id] := by
    simp [register, objKeys]
  refine ⟨⟨?_, ?_⟩, ?_, ?_⟩
  · rw [hkeys, List.pairwise_append]
    refine ⟨h.1, List.pairwise_singleton _ _, ?_⟩
    intro a ha b hb
    rw [List.mem_singleton] at hb
    subst hb
    exact h.2 a ha
  · intro id hid
    rw [hkeys, List.mem_append] at hid
    show id < s.next_object_id + 1
    rcases hid with hid | hid
    · exact (h.2 id hid).trans (Nat.lt_succ_self _)
    · rw [List.mem_singleton] at hid
      subst hid
      exact Nat.lt_succ_self _
  · exact Nat.le_succ _
  · intro id hid
    rw [hkeys, List.mem_append] at hid
    rcases hid with hid | hid
    · exact Or.inl hid
    · rw [List.mem_singleton] at hid
      subst hid
      exact Or.inr (le_refl _)

theorem deregister_wf {s : TrackerState} (id : ℕ) (h : TrackerWF s) :
    TrackerWF (deregister s id) ∧ Stepped s (deregister s id) := by
  have hsub : (objKeys (deregister s id)).Sublist (objKeys s) :=
    (eraseKey_sublist id s.objects).map Prod.fst
  refine ⟨⟨List.Pairwise.sublist hsub h.1, fun i hi => h.2 i (hsub.subset hi)⟩,
    le_refl _, fun i hi => Or.inl (hsub.subset hi)⟩

theorem ageOne_wf {s : TrackerState} (cfg : TrackerConfig) (id : ℕ)
    (h : TrackerWF s) : TrackerWF (ageOne cfg s id) ∧ Stepped s (ageOne cfg s id) := by
  rw [ageOne]
  have hkeys : objKeys (TrackerState.mk s.next_object_id s.objects
      (setKeyVal id (((lookupKey id s.disappeared).getD 0) + 1) s.disappeared)
      s.detections_history) = objKeys s := rfl
  have h' : TrackerWF (TrackerState.mk s.next_object_id s.objects
      (setKeyVal id (((lookupKey id s.disappeared).getD 0) + 1) s.disappeared)
      s.detections_history) := ⟨hkeys ▸ h.1, fun i hi => h.2 i (hkeys ▸ hi)⟩
  have hmid : Stepped s (TrackerState.mk s.next_object_id s.objects
      (setKeyVal id (((lookupKey id s.disappeared).getD 0) + 1) s.disappeared)
      s.detections_history) := ⟨le_refl _, fun i hi => Or.inl (hkeys ▸ hi)⟩
  split
  · rcases deregister_wf id h' with ⟨hw, hs⟩
    exact ⟨hw, stepped_trans hmid hs⟩
  · exact ⟨h', hmid⟩

theorem applyMatch_wf {s : TrackerState} (m : (ℕ × (ℚ × ℚ)) × (ℕ × Detection))
    (h : TrackerWF s) : TrackerWF (applyMatch s m) ∧ Stepped s (applyMatch s m) := by
  have hkeys : objKeys (applyMatch s m) = objKeys s := by
    rw [applyMatch, objKeys, objKeys]
    exact keys_setKeyVal _ _ _
  exact ⟨⟨hkeys ▸ h.1, fun i hi => h.2 i (hkeys ▸ hi)⟩,
    le_refl _, fun i hi => Or.inl (hkeys ▸ hi)⟩

theorem foldl_wf {β : Type} (f : TrackerState → β → TrackerState)
    (hf : ∀ s b, TrackerWF s → TrackerWF (f s b) ∧ Stepped s (f s b)) :
    ∀ (l : List β) (s : TrackerState), TrackerWF s →
      TrackerWF (l.foldl f s) ∧ Stepped s (l.foldl f s) := by
  intro l
  induction l with
  | nil => exact fun s h => ⟨h, stepped_refl s⟩
  | cons b t ih =>
    intro s h
    rcases hf s b h with ⟨h1, h2⟩
    rcases ih (f s b) h1 with ⟨h3, h4⟩
    exact ⟨h3, stepped_trans h2 h4⟩

theorem update_wf (cfg : TrackerConfig) (dets : List Detection) {s : TrackerState}
    (h : TrackerWF s) : TrackerWF (CentroidTracker_update cfg s dets).2 ∧
      Stepped s (CentroidTracker_update cfg s dets).2 := by
  rw [CentroidTracker_update]
  split
  · exact foldl_wf (ageOne cfg) (fun s i => ageOne_wf cfg i) _ s h
  · simp only
    split
    · exact foldl_wf _ (fun s d => register_wf d.centroid d) dets s h
    · rcases foldl_wf applyMatch (fun s m => applyMatch_wf m) _ s h with ⟨h1, s1⟩
      rcases foldl_wf (ageOne cfg) (fun s i => ageOne_wf cfg i) _ _ h1 with ⟨h2, s2⟩
      rcases foldl_wf _ (fun s (e : ℕ × Detection) => register_wf e.2.centroid e.2)
        _ _ h2 with ⟨h3, s3⟩
      exact ⟨h3, stepped_trans s1 (stepped_trans s2 s3)⟩

/-- C8: over any tracker operation (register, deregister, update) from a
well-formed state: well-formedness is preserved (tracked ids are strictly
increasing along the dictionary — in particular there is at most one
centroid per id — and all below the id counter), the counter never
decreases, and every id present afterwards is either an old id or a fresh
one `≥` the old counter. Together these give sequential assignment and
no reuse: a removed id stays below every later counter value, so any later
registration — including a reappearance of the same object — gets a strictly
larger id. The initial state is well-formed. -/
theorem tracker_ids_spec (cfg : TrackerConfig) (op : TrackerOp) (s : TrackerState)
    (h : TrackerWF s) :
    TrackerWF initTracker ∧
    TrackerWF (applyOp cfg op s) ∧
    (objKeys (applyOp cfg op s)).Nodup ∧
    s.next_object_id ≤ (applyOp cfg op s).next_object_id ∧
    (∀ id ∈ objKeys (applyOp cfg op s), id ∈ objKeys s ∨ s.next_object_id ≤ id) ∧
    (∀ id ∈ objKeys s, id < s.next_object_id) := by
  have hinit : TrackerWF initTracker := ⟨List.Pairwise.nil, by simp [objKeys, initTracker]⟩
  have hmain : TrackerWF (applyOp cfg op s) ∧ Stepped s (applyOp cfg op s) := by
    match op with
    | .reg c d => exact register_wf c d h
    | .dereg id => exact deregister_wf id h
    | .upd dets => exact update_wf cfg dets h
  exact ⟨hinit, hmain.1, List.Pairwise.imp ne_of_lt hmain.1.1, hmain.2.1, hmain.2.2, h.2⟩

theorem tracker_ids_spec_witness :
    TrackerWF (applyOp (TrackerConfig.mk 5 50) (.reg (5, 5) defaultDetection)
      initTracker) ∧
    (objKeys (applyOp (TrackerConfig.mk 5 50) (.reg (5, 5) defaultDetection)
      initTracker)).Nodup :=
  ⟨(tracker_ids_spec (TrackerConfig.mk 5 50) (.reg (5, 5) defaultDetection)
      initTracker ⟨List.Pairwise.nil, by simp [objKeys, initTracker]⟩).2.1,
   (tracker_ids_spec (TrackerConfig.mk 5 50) (.reg (5, 5) defaultDetection)
      initTracker ⟨List.Pairwise.nil, by simp [objKeys, initTracker]⟩).2.2.1⟩

theorem insertSorted_perm (key : ℕ × (ℚ × ℚ) → ℚ) (x : ℕ × (ℚ × ℚ)) :
    ∀ l : List (ℕ × (ℚ × ℚ)), (insertSorted key x l).Perm (x :: l) := by
  intro l
  induction l with
  | nil => exact List.Perm.refl _
  | cons y ys ih =>
    rw [insertSorted]
    split
    · exact (ih.cons y).trans (List.Perm.swap x y ys)
    · exact List.Perm.refl _

theorem insertSorted_sorted (key : ℕ × (ℚ × ℚ) → ℚ) (x : ℕ × (ℚ × ℚ))
    {l : List (ℕ × (ℚ × ℚ))} (h : List.Pairwise (fun a b => key a ≤ key b) l) :
    List.Pairwise (fun a b => key a ≤ key b) (insertSorted key x l) := by
  induction l with
  | nil => exact List.pairwise_singleton _ _
  | cons y ys ih =>
    rcases List.pairwise_cons.mp h with ⟨hy, hys⟩
    rw [insertSorted]
    split
    · rename_i hlt
      rw [List.pairwise_cons]
      refine ⟨?_, ih hys⟩
      intro z hz
      have hz' := (insertSorted_perm key x ys).mem_iff.mp hz
      rcases List.mem_cons.mp hz' with hz' | hz'
      · subst hz'
        exact le_of_lt hlt
      · exact hy z hz'
    · rename_i hnlt
      rw [List.pairwise_cons]
      refine ⟨?_, h⟩
      intro z hz
      rcases List.mem_cons.mp hz with hz | hz
      · subst hz
        exact not_lt.mp hnlt
      · exact (not_lt.mp hnlt).trans (hy z hz)

theorem sortRows_perm (key : ℕ × (ℚ × ℚ) → ℚ) (l : List (ℕ × (ℚ × ℚ))) :
    (sortRows key l).Perm l := by
  induction l with
  | nil => exact List.Perm.refl _
  | cons x xs ih =>
    rw [sortRows, List.foldr_cons]
    exact ((insertSorted_perm key x _).trans (ih.cons x))

theorem sortRows_sorted (key : ℕ × (ℚ × ℚ) → ℚ) (l : List (ℕ × (ℚ × ℚ))) :
    List.Pairwise (fun a b => key a ≤ key b) (sortRows key l) := by
  induction l with
  | nil => exact List.Pairwise.nil
  | cons x xs ih => exact insertSorted_sorted key x ih

theorem argminFold_spec (c : ℚ × ℚ) :
    ∀ (rest : List (ℕ × Detection)) (e0 : ℕ × Detection),
      (rest.foldl (fun best e =>
          if sqDist c e.2.centroid < best.2 then (e, sqDist c e.2.centroid) else best)
        (e0, sqDist c e0.2.centroid)).1 ∈ e0 :: rest ∧
      (rest.foldl (fun best e =>
          if sqDist c e.2.centroid < best.2 then (e, sqDist c e.2.centroid) else best)
        (e0, sqDist c e0.2.centroid)).2 =
        sqDist c (rest.foldl (fun best e =>
          if sqDist c e.2.centroid < best.2 then (e, sqDist c e.2.centroid) else best)
        (e0, sqDist c e0.2.centroid)).1.2.centroid ∧
      ∀ e ∈ e0 :: rest,
        (rest.foldl (fun best e =>
          if sqDist c e.2.centroid < best.2 then (e, sqDist c e.2.centroid) else best)
        (e0, sqDist c e0.2.centroid)).2 ≤ sqDist c e.2.centroid := by
  intro rest
  induction rest with
  | nil =>
    intro e0
    refine ⟨List.mem_cons_self _ _, rfl, ?_⟩
    intro e he
    rw [List.mem_singleton] at he
    subst he
    exact le_refl _
  | cons e1 rest ih =>
    intro e0
    rw [List.foldl_cons]
    by_cases hlt : sqDist c e1.2.centroid < sqDist c e0.2.centroid
    · rw [if_pos hlt]
      rcases ih e1 with ⟨h1, h2, h3⟩
      refine ⟨?_, h2, ?_⟩
      · rcases List.mem_cons.mp h1 with h | h
        · rw [h]
          exact List.mem_cons_of_mem _ (List.mem_cons_self _ _)
        · exact List.mem_cons_of_mem _ (List.mem_cons_of_mem _ h)
      · intro e he
        rcases List.mem_cons.mp he with h | h
        · subst h
          exact (h3 e1 (List.mem_cons_self _ _)).trans (le_of_lt hlt)
        · exact h3 e h
    · rw [if_neg hlt]
      rcases ih e0 with ⟨h1, h2, h3⟩
      refine ⟨?_, h2, ?_⟩
      · rcases List.mem_cons.mp h1 with h | h
        · rw [h]
          exact List.mem_cons_self _ _
        · exact List.mem_cons_of_mem _ (List.mem_cons_of_mem _ h)
      · intro e he
        rcases List.mem_cons.mp he with h | h
        · subst h
          exact h3 e (List.mem_cons_self _ _)
        · rcases List.mem_cons.mp h with h | h
          · subst h
            exact (h3 e0 (List.mem_cons_self _ _)).trans (not_lt.mp hlt)
          · exact h3 e (List.mem_cons_of_mem _ h)

theorem argminEntry_spec {c : ℚ × ℚ} {eds : List (ℕ × Detection)} (h : eds ≠ []) :
    (argminEntry c eds).1 ∈ eds ∧
    (argminEntry c eds).2 = sqDist c (argminEntry c eds).1.2.centroid ∧
    ∀ e ∈ eds, (argminEntry c eds).2 ≤ sqDist c e.2.centroid := by
  match eds with
  | e0 :: rest =>
    rw [argminEntry]
    exact argminFold_spec c rest e0

theorem greedyMatch_entries (cfg : TrackerConfig) (eds : List (ℕ × Detection)) :
    ∀ (rows : List (ℕ × (ℚ × ℚ))) (used : List ℕ),
      (∀ m ∈ greedyMatch cfg eds rows used,
        m.2 = (argminEntry m.1.2 eds).1 ∧
        ¬(cfg.max_distance < 0 ∨ cfg.max_distance ^ 2 < (argminEntry m.1.2 eds).2) ∧
        m.1 ∈ rows ∧ m.2.1 ∉ used) ∧
      ((greedyMatch cfg eds rows used).map (fun m => m.2.1)).Nodup := by
  intro rows
  induction rows with
  | nil => exact fun used => ⟨by simp [greedyMatch], by simp [greedyMatch]⟩
  | cons r rs ih =>
    intro used
    rw [greedyMatch]
    split
    · rename_i hskip
      refine ⟨?_, (ih used).2⟩
      intro m hm
      rcases (ih used).1 m hm with ⟨h1, h2, h3, h4⟩
      exact ⟨h1, h2, List.mem_cons_of_mem r h3, h4⟩
    · rename_i hkeep
      rw [not_or] at hkeep
      constructor
      · intro m hm
        rcases List.mem_cons.mp hm with hm | hm
        · subst hm
          exact ⟨rfl, hkeep.2, List.mem_cons_self _ _, hkeep.1⟩
        · rcases (ih _).1 m hm with ⟨h1, h2, h3, h4⟩
          refine ⟨h1, h2, List.mem_cons_of_mem r h3, ?_⟩
          intro hc
          exact h4 (List.mem_cons_of_mem _ hc)
      · rw [List.map_cons, List.nodup_cons]
        refine ⟨?_, (ih _).2⟩
        intro hc
        rw [List.mem_map] at hc
        rcases hc with ⟨m, hm, hc⟩
        exact ((ih _).1 m hm).2.2.2 (hc ▸ List.mem_cons_self _ _)

theorem greedyMatch_skipped (cfg : TrackerConfig) (eds : List (ℕ × Detection)) :
    ∀ (rows : List (ℕ × (ℚ × ℚ))) (used : List ℕ) (r : ℕ × (ℚ × ℚ)), r ∈ rows →
      r ∉ (greedyMatch cfg eds rows used).map Prod.fst →
      ((cfg.max_distance < 0 ∨ cfg.max_distance ^ 2 < (argminEntry r.2 eds).2) ∨
        (argminEntry r.2 eds).1.1 ∈ used ∨
        (argminEntry r.2 eds).1.1 ∈
          (greedyMatch cfg eds rows used).map (fun m => m.2.1)) := by
  intro rows
  induction rows with
  | nil =>
    intro used r hr
    exact absurd hr (List.not_mem_nil r)
  | cons r0 rs ih =>
    intro used r hr hnm
    rw [greedyMatch] at hnm ⊢
    rcases List.mem_cons.mp hr with hr0 | hrs
    · subst hr0
      split at hnm
      · rename_i hskip
        rcases hskip with hused | hgate
        · exact Or.inr (Or.inl hused)
        · exact Or.inl hgate
      · exact absurd (by
          rw [List.map_cons]
          exact List.mem_cons_self _ _) hnm
    · split at hnm
      · rename_i hskip
        rw [if_pos hskip]
        exact ih used r hrs hnm
      · rename_i hkeep
        rw [if_neg hkeep]
        rw [List.map_cons] at hnm
        have hnm' : r ∉ (greedyMatch cfg eds rs
            ((argminEntry r0.2 eds).1.1 :: used)).map Prod.fst := by
          intro hc
          exact hnm (List.mem_cons_of_mem _ hc)
        rcases ih _ r hrs hnm' with h | h | h
        · exact Or.inl h
        · rcases List.mem_cons.mp h with h | h
          · refine Or.inr (Or.inr ?_)
            rw [List.map_cons, h]
            exact List.mem_cons_self _ _
          · exact Or.inr (Or.inl h)
        · refine Or.inr (Or.inr ?_)
          rw [List.map_cons]
          exact List.mem_cons_of_mem _ h

theorem lookupKey_cons {α : Type} (e : ℕ × α) (t : List (ℕ × α)) (id : ℕ) :
    lookupKey id (e :: t) = if e.1 = id then some e.2 else lookupKey id t := by
  unfold lookupKey
  by_cases h : e.1 = id
  · rw [List.find?_cons_of_pos _ (by simp [h]), if_pos h]
    rfl
  · rw [List.find?_cons_of_neg _ (by simp [h]), if_neg h]

theorem setKeyVal_cons {α : Type} (k : ℕ) (v : α) (e : ℕ × α) (t : List (ℕ × α)) :
    setKeyVal k v (e :: t) = (if e.1 = k then (k, v) else e) :: setKeyVal k v t := by
  rw [setKeyVal, List.map_cons]
  rfl

theorem eraseKey_cons {α : Type} (k : ℕ) (e : ℕ × α) (t : List (ℕ × α)) :
    eraseKey k (e :: t) = if e.1 = k then eraseKey k t else e :: eraseKey k t := by
  rw [eraseKey, List.filter_cons]
  by_cases h : e.1 = k
  · simp [h, eraseKey]
  · simp [h, eraseKey]

theorem lookupKey_setKeyVal_ne {α : Type} {id k : ℕ} (hne : id ≠ k) (v : α)
    (l : List (ℕ × α)) : lookupKey id (setKeyVal k v l) = lookupKey id l := by
  induction l with
  | nil => rfl
  | cons e t ih =>
    rw [setKeyVal_cons, lookupKey_cons, lookupKey_cons]
    by_cases he : e.1 = k
    · rw [if_pos he, if_neg (by simpa using hne.symm), if_neg (he ▸ fun hc => hne hc.symm)]
      exact ih
    · rw [if_neg he]
      by_cases hi : e.1 = id
      · rw [if_pos hi, if_pos hi]
      · rw [if_neg hi, if_neg hi]
        exact ih

theorem lookupKey_setKeyVal_eq {α : Type} {id : ℕ} (v : α) {l : List (ℕ × α)}
    (h : id ∈ l.map Prod.fst) : lookupKey id (setKeyVal id v l) = some v := by
  induction l with
  | nil => simp at h
  | cons e t ih =>
    rw [setKeyVal_cons, lookupKey_cons]
    by_cases he : e.1 = id
    · rw [if_pos he]
      simp
    · rw [if_neg he, if_neg he]
      rw [List.map_cons, List.mem_cons] at h
      rcases h with h | h
      · exact absurd h.symm he
      · exact ih h

theorem lookupKey_eraseKey_ne {α : Type} {id k : ℕ} (hne : id ≠ k)
    (l : List (ℕ × α)) : lookupKey id (eraseKey k l) = lookupKey id l := by
  induction l with
  | nil => rfl
  | cons e t ih =>
    rw [eraseKey_cons, lookupKey_cons]
    by_cases he : e.1 = k
    · rw [if_pos he, if_neg (he ▸ fun hc => hne hc.symm)]
      exact ih
    · rw [if_neg he, lookupKey_cons]
      by_cases hi : e.1 = id
      · rw [if_pos hi, if_pos hi]
      · rw [if_neg hi, if_neg hi]
        exact ih

theorem lookupKey_eraseKey_eq {α : Type} (id : ℕ) (l : List (ℕ × α)) :
    lookupKey id (eraseKey id l) = none := by
  induction l with
  | nil => rfl
  | cons e t ih =>
    rw [eraseKey_cons]
    by_cases he : e.1 = id
    · rw [if_pos he]
      exact ih
    · rw [if_neg he, lookupKey_cons, if_neg he]
      exact ih

theorem lookupKey_append_some {α : Type} {id : ℕ} {v : α} {l : List (ℕ × α)}
    (h : lookupKey id l = some v) (l2 : List (ℕ × α)) :
    lookupKey id (l ++ l2) = some v := by
  induction l with
  | nil => simp [lookupKey] at h
  | cons e t ih =>
    rw [List.cons_append, lookupKey_cons]
    rw [lookupKey_cons] at h
    by_cases he : e.1 = id
    · rw [if_pos he]
      rw [if_pos he] at h
      exact h
    · rw [if_neg he]
      rw [if_neg he] at h
      exact ih h

theorem lookupKey_append_none {α : Type} {id : ℕ} {l : List (ℕ × α)}
    (h : lookupKey id l = none) (l2 : List (ℕ × α)) :
    lookupKey id (l ++ l2) = lookupKey id l2 := by
  induction l with
  | nil => rfl
  | cons e t ih =>
    rw [List.cons_append, lookupKey_cons]
    rw [lookupKey_cons] at h
    by_cases he : e.1 = id
    · rw [if_pos he] at h
      exact absurd h (by simp)
    · rw [if_neg he]
      rw [if_neg he] at h
      exact ih h

theorem keys_eraseKey {α : Type} (k : ℕ) (l : List (ℕ × α)) :
    (eraseKey k l).map Prod.fst = (l.map Prod.fst).filter (fun id => decide (id ≠ k)) := by
  induction l with
  | nil => rfl
  | cons e t ih =>
    rw [eraseKey_cons, List.map_cons, List.filter_cons]
    by_cases he : e.1 = k
    · rw [if_pos he, ih, if_neg (by simp [he])]
    · rw [if_neg he, List.map_cons, ih, if_pos (by simp [he])]

/-- The three dictionaries of a tracker share one key list, and every
tracked history is nonempty. -/
def TrackerAligned (s : TrackerState) : Prop :=
  s.disappeared.map Prod.fst = s.objects.map Prod.fst ∧
  s.detections_history.map Prod.fst = s.objects.map Prod.fst ∧
  ∀ p ∈ s.detections_history, p.2 ≠ []

theorem register_aligned {s : TrackerState} (c : ℚ × ℚ) (d : Detection)
    (h : TrackerAligned s) : TrackerAligned (register s c d) := by
  refine ⟨?_, ?_, ?_⟩
  · show (s.disappeared ++ [(s.next_object_id, 0)]).map Prod.fst =
      (s.objects ++ [(s.next_object_id, c)]).map Prod.fst
    rw [List.map_append, List.map_append, h.1]
    rfl
  · show (s.detections_history ++ [(s.next_object_id, [d])]).map Prod.fst =
      (s.objects ++ [(s.next_object_id, c)]).map Prod.fst
    rw [List.map_append, List.map_append, h.2.1]
    rfl
  · intro p hp
    rcases List.mem_append.mp hp with hp | hp
    · exact h.2.2 p hp
    · rw [List.mem_singleton] at hp
      subst hp
      simp

theorem deregister_aligned {s : TrackerState} (id : ℕ) (h : TrackerAligned s) :
    TrackerAligned (deregister s id) := by
  refine ⟨?_, ?_, ?_⟩
  · show (eraseKey id s.disappeared).map Prod.fst = (eraseKey id s.objects).map Prod.fst
    rw [keys_eraseKey, keys_eraseKey, h.1]
  · show (eraseKey id s.detections_history).map Prod.fst =
      (eraseKey id s.objects).map Prod.fst
    rw [keys_eraseKey, keys_eraseKey, h.2.1]
  · intro p hp
    exact h.2.2 p (List.mem_of_mem_filter hp)

theorem ageOne_aligned {s : TrackerState} (cfg : TrackerConfig) (id : ℕ)
    (h : TrackerAligned s) : TrackerAligned (ageOne cfg s id) := by
  rw [ageOne]
  have h' : TrackerAligned (TrackerState.mk s.next_object_id s.objects
      (setKeyVal id (((lookupKey id s.disappeared).getD 0) + 1) s.disappeared)
      s.detections_history) := by
    refine ⟨?_, h.2.1, h.2.2⟩
    show (setKeyVal id _ s.disappeared).map Prod.fst = s.objects.map Prod.fst
    rw [keys_setKeyVal, h.1]
  split
  · exact deregister_aligned id h'
  · exact h'

theorem applyMatch_aligned {s : TrackerState} (m : (ℕ × (ℚ × ℚ)) × (ℕ × Detection))
    (h : TrackerAligned s) : TrackerAligned (applyMatch s m) := by
  refine ⟨?_, ?_, ?_⟩
  · show (setKeyVal m.1.1 0 s.disappeared).map Prod.fst =
      (setKeyVal m.1.1 m.2.2.centroid s.objects).map Prod.fst
    rw [keys_setKeyVal, keys_setKeyVal, h.1]
  · show (setKeyVal m.1.1 _ s.detections_history).map Prod.fst =
      (setKeyVal m.1.1 m.2.2.centroid s.objects).map Prod.fst
    rw [keys_setKeyVal, keys_setKeyVal, h.2.1]
  · intro p hp
    rcases List.mem_map.mp hp with ⟨q, hq, hpq⟩
    by_cases he : q.1 = m.1.1
    · rw [← hpq, if_pos he]
      simp
    · rw [← hpq, if_neg he]
      exact h.2.2 q hq

theorem foldl_pres {β : Type} (P : TrackerState → Prop)
    (f : TrackerState → β → TrackerState) (hf : ∀ s b, P s → P (f s b)) :
    ∀ (l : List β) (s : TrackerState), P s → P (l.foldl f s) := by
  intro l
  induction l with
  | nil => exact fun s h => h
  | cons b t ih => exact fun s h => ih (f s b) (hf s b h)

theorem update_aligned (cfg : TrackerConfig) (dets : List Detection)
    {s : TrackerState} (h : TrackerAligned s) :
    TrackerAligned (CentroidTracker_update cfg s dets).2 := by
  rw [CentroidTracker_update]
  split
  · exact foldl_pres TrackerAligned (ageOne cfg) (fun s i => ageOne_aligned cfg i) _ s h
  · simp only
    split
    · exact foldl_pres TrackerAligned _ (fun s d => register_aligned d.centroid d) dets s h
    · refine foldl_pres TrackerAligned _
        (fun s (e : ℕ × Detection) => register_aligned e.2.centroid e.2) _ _ ?_
      refine foldl_pres TrackerAligned (ageOne cfg) (fun s i => ageOne_aligned cfg i) _ _ ?_
      exact foldl_pres TrackerAligned applyMatch (fun s m => applyMatch_aligned m) _ s h

theorem lookupKey_isSome_of_mem_keys {α : Type} {id : ℕ} {l : List (ℕ × α)}
    (h : id ∈ l.map Prod.fst) : ∃ v, lookupKey id l = some v := by
  induction l with
  | nil => simp at h
  | cons e t ih =>
    rw [lookupKey_cons]
    by_cases he : e.1 = id
    · exact ⟨e.2, by rw [if_pos he]⟩
    · rw [if_neg he]
      rw [List.map_cons, List.mem_cons] at h
      rcases h with h | h
      · exact absurd h.symm he
      · exact ih h

theorem mem_of_lookupKey_eq_some {α : Type} {id : ℕ} {v : α} {l : List (ℕ × α)}
    (h : lookupKey id l = some v) : (id, v) ∈ l := by
  unfold lookupKey at h
  cases hf : l.find? (fun e => e.1 == id) with
  | none => rw [hf] at h; simp at h
  | some e =>
    rw [hf] at h
    simp only [Option.map_some'] at h
    have h1 : e.1 = id := by simpa using List.find?_some hf
    have h2 : e ∈ l := List.mem_of_find?_eq_some hf
    have : e = (id, v) := by
      rcases e with ⟨k, w⟩
      simp only at h1
      simp only [Option.some.injEq] at h
      rw [h1, h]
    rw [← this]
    exact h2

theorem trackResults_aux (hist : List (ℕ × List Detection))
    (hne : ∀ p ∈ hist, p.2 ≠ []) :
    ∀ objs : List (ℕ × (ℚ × ℚ)),
      (∀ id ∈ objs.map Prod.fst, id ∈ hist.map Prod.fst) →
      ((objs.filterMap (fun e =>
          match lookupKey e.1 hist with
          | some h => h.getLast?.map (fun d => (e.1, d))
          | none => none)).map Prod.fst = objs.map Prod.fst) ∧
      ∀ e ∈ objs.filterMap (fun e =>
          match lookupKey e.1 hist with
          | some h => h.getLast?.map (fun d => (e.1, d))
          | none => none),
        ∃ h, lookupKey e.1 hist = some h ∧ h.getLast? = some e.2 := by
  intro objs
  induction objs with
  | nil => exact fun _ => ⟨rfl, by simp⟩
  | cons e t ih =>
    intro hmem
    obtain ⟨h, hh⟩ := lookupKey_isSome_of_mem_keys
      (hmem e.1 (by rw [List.map_cons]; exact List.mem_cons_self _ _))
    have hne' : h ≠ [] := hne _ (mem_of_lookupKey_eq_some hh)
    obtain ⟨d, hd⟩ : ∃ d, h.getLast? = some d := by
      have := List.getLast?_isSome.mpr hne'
      exact Option.isSome_iff_exists.mp this
    have hfe : (match lookupKey e.1 hist with
        | some h => h.getLast?.map (fun d => (e.1, d))
        | none => none) = some (e.1, d) := by
      rw [hh]
      show h.getLast?.map (fun d => (e.1, d)) = some (e.1, d)
      rw [hd]
      rfl
    have ihrest := ih (fun id hid => hmem id (by
      rw [List.map_cons]
      exact List.mem_cons_of_mem _ hid))
    constructor
    · rw [List.filterMap_cons, hfe, List.map_cons, List.map_cons, ihrest.1]
    · intro x hx
      rw [List.filterMap_cons, hfe] at hx
      rcases List.mem_cons.mp hx with hx | hx
      · subst hx
        exact ⟨h, hh, hd⟩
      · exact ihrest.2 x hx

theorem trackResults_spec {s : TrackerState} (hal : TrackerAligned s) :
    (trackResults s).map Prod.fst = objKeys s ∧
    ∀ e ∈ trackResults s, ∃ h, lookupKey e.1 s.detections_history = some h ∧
      h.getLast? = some e.2 :=
  trackResults_aux s.detections_history hal.2.2 s.objects
    (fun id hid => by rw [hal.2.1]; exact hid)

/-- C10 (counterexample): after registering one track and then updating with
an EMPTY detection list, the map returned by `update` is empty even though
the track (id 0, with one miss) is still tracked — the empty-input branch
returns `{}` before consulting the current track table. -/
theorem tracker_update_empty_counterexample :
    (CentroidTracker_update (TrackerConfig.mk 5 50)
      (register initTracker (5, 5) defaultDetection) []).1 = [] ∧
    objKeys (CentroidTracker_update (TrackerConfig.mk 5 50)
      (register initTracker (5, 5) defaultDetection) []).2 = [0] ∧
    ((CentroidTracker_update (TrackerConfig.mk 5 50)
      (register initTracker (5, 5) defaultDetection) []).1).map Prod.fst ≠
      objKeys (CentroidTracker_update (TrackerConfig.mk 5 50)
        (register initTracker (5, 5) defaultDetection) []).2 := by
  refine ⟨rfl, ?_, ?_⟩
  · rfl
  · intro hc
    have : ([] : List ℕ) = [0] := by
      calc ([] : List ℕ) = _ := by rfl
        _ = [0] := hc.trans (by rfl)
    simp at this

/-- C10 (amended): the key sets of `objects`, `disappeared` and
`detections_history` coincide after every operation, every tracked history
is nonempty, and the map returned by `update` on a NON-EMPTY detection list
contains exactly the currently tracked ids, each bound to the most recently
appended detection of its history; `update` on an empty detection list
returns the empty map regardless of the surviving tracks. -/
theorem tracker_maps_spec :
    TrackerAligned initTracker ∧
    (∀ (cfg : TrackerConfig) (op : TrackerOp) (s : TrackerState),
      TrackerAligned s → TrackerAligned (applyOp cfg op s)) ∧
    (∀ (cfg : TrackerConfig) (s : TrackerState) (dets : List Detection),
      TrackerAligned s → dets ≠ [] →
      ((CentroidTracker_update cfg s dets).1).map Prod.fst =
        objKeys (CentroidTracker_update cfg s dets).2 ∧
      ∀ e ∈ (CentroidTracker_update cfg s dets).1,
        ∃ h, lookupKey e.1
            (CentroidTracker_update cfg s dets).2.detections_history = some h ∧
          h.getLast? = some e.2) ∧
    (∀ (cfg : TrackerConfig) (s : TrackerState),
      (CentroidTracker_update cfg s []).1 = []) := by
  refine ⟨⟨rfl, rfl, by intro p hp; simp [initTracker] at hp⟩, ?_, ?_, ?_⟩
  · intro cfg op s h
    match op with
    | .reg c d => exact register_aligned c d h
    | .dereg id => exact deregister_aligned id h
    | .upd dets => exact update_aligned cfg dets h
  · intro cfg s dets hal hne
    have hlen : ¬ dets.length = 0 := by
      intro hc
      exact hne (List.length_eq_zero.mp hc)
    have hfst : (CentroidTracker_update cfg s dets).1 =
        trackResults (CentroidTracker_update cfg s dets).2 := by
      rw [CentroidTracker_update, if_neg hlen]
    have hal' : TrackerAligned (CentroidTracker_update cfg s dets).2 :=
      update_aligned cfg dets hal
    rw [hfst]
    exact trackResults_spec hal'
  · intro cfg s
    rfl

theorem tracker_maps_spec_witness :
    ((CentroidTracker_update (TrackerConfig.mk 5 50)
        (register initTracker (5, 5) defaultDetection) [defaultDetection]).1).map
        Prod.fst =
      objKeys (CentroidTracker_update (TrackerConfig.mk 5 50)
        (register initTracker (5, 5) defaultDetection) [defaultDetection]).2 :=
  (tracker_maps_spec.2.2.1 (TrackerConfig.mk 5 50)
    (register initTracker (5, 5) defaultDetection) [defaultDetection]
    (tracker_maps_spec.2.1 (TrackerConfig.mk 5 50) (.reg (5, 5) defaultDetection)
      initTracker tracker_maps_spec.1)
    (by simp)).1

theorem mem_keys_of_lookupKey_eq_some {α : Type} {id : ℕ} {v : α} {l : List (ℕ × α)}
    (h : lookupKey id l = some v) : id ∈ l.map Prod.fst :=
  List.mem_map_of_mem Prod.fst (mem_of_lookupKey_eq_some h)

theorem lookupKey_eq_none_of_not_mem {α : Type} {id : ℕ} {l : List (ℕ × α)}
    (h : id ∉ l.map Prod.fst) : lookupKey id l = none := by
  cases hv : lookupKey id l with
  | none => rfl
  | some v => exact absurd (mem_keys_of_lookupKey_eq_some hv) h

theorem lookupKey_append_single_ne {α : Type} {id k : ℕ} (hne : id ≠ k) (v : α)
    (l : List (ℕ × α)) : lookupKey id (l ++ [(k, v)]) = lookupKey id l := by
  cases hv : lookupKey id l with
  | some w => exact lookupKey_append_some hv _
  | none =>
    rw [lookupKey_append_none hv, lookupKey_cons,
      if_neg (fun hc => hne hc.symm)]
    rfl

theorem next_foldl_applyMatch (ms : List ((ℕ × (ℚ × ℚ)) × (ℕ × Detection))) :
    ∀ s : TrackerState, (ms.foldl applyMatch s).next_object_id = s.next_object_id := by
  induction ms with
  | nil => exact fun s => rfl
  | cons m t ih => exact fun s => ih (applyMatch s m)

theorem next_ageOne (cfg : TrackerConfig) (s : TrackerState) (id : ℕ) :
    (ageOne cfg s id).next_object_id = s.next_object_id := by
  rw [ageOne]
  split <;> rfl

theorem next_foldl_ageOne (cfg : TrackerConfig) (l : List ℕ) :
    ∀ s : TrackerState, (l.foldl (ageOne cfg) s).next_object_id = s.next_object_id := by
  induction l with
  | nil => exact fun s => rfl
  | cons i t ih =>
    intro s
    rw [List.foldl_cons, ih, next_ageOne]

theorem next_foldl_register (l : List (ℕ × Detection)) :
    ∀ s : TrackerState,
      (l.foldl (fun st e => register st e.2.centroid e.2) s).next_object_id =
        s.next_object_id + l.length := by
  induction l with
  | nil => exact fun s => rfl
  | cons e t ih =>
    intro s
    rw [List.foldl_cons, ih]
    show s.next_object_id + 1 + t.length = s.next_object_id + (t.length + 1)
    omega

theorem disappeared_foldl_applyMatch_ne {id : ℕ}
    (ms : List ((ℕ × (ℚ × ℚ)) × (ℕ × Detection))) :
    ∀ s : TrackerState, (∀ m ∈ ms, m.1.1 ≠ id) →
      lookupKey id (ms.foldl applyMatch s).disappeared = lookupKey id s.disappeared := by
  induction ms with
  | nil => exact fun s _ => rfl
  | cons m t ih =>
    intro s h
    rw [List.foldl_cons, ih _ (fun m' hm' => h m' (List.mem_cons_of_mem m hm'))]
    show lookupKey id (setKeyVal m.1.1 0 s.disappeared) = _
    exact lookupKey_setKeyVal_ne (fun hc => h m (List.mem_cons_self m t) hc.symm) 0 _

theorem keys_disappeared_foldl_applyMatch (ms : List ((ℕ × (ℚ × ℚ)) × (ℕ × Detection))) :
    ∀ s : TrackerState,
      ((ms.foldl applyMatch s).disappeared).map Prod.fst = s.disappeared.map Prod.fst := by
  induction ms with
  | nil => exact fun s => rfl
  | cons m t ih =>
    intro s
    rw [List.foldl_cons, ih]
    exact keys_setKeyVal _ _ _

theorem foldl_applyMatch_matched (cfg : TrackerConfig) :
    ∀ (ms : List ((ℕ × (ℚ × ℚ)) × (ℕ × Detection))) (s : TrackerState),
      (ms.map (fun m => m.1.1)).Nodup →
      ∀ m ∈ ms, m.1.1 ∈ s.disappeared.map Prod.fst →
        lookupKey m.1.1 (ms.foldl applyMatch s).disappeared = some 0 := by
  intro ms
  induction ms with
  | nil =>
    intro s _ m hm
    exact absurd hm (List.not_mem_nil m)
  | cons m0 t ih =>
    intro s hnd m hm hmem
    rw [List.map_cons, List.nodup_cons] at hnd
    rcases List.mem_cons.mp hm with hm | hm
    · subst hm
      rw [List.foldl_cons,
        disappeared_foldl_applyMatch_ne t (applyMatch s m)
          (fun m' hm' hc =>
            hnd.1 (by rw [← hc]; exact List.mem_map_of_mem (fun x => x.1.1) hm'))]
      show lookupKey m.1.1 (setKeyVal m.1.1 0 s.disappeared) = some 0
      exact lookupKey_setKeyVal_eq 0 hmem
    · rw [List.foldl_cons]
      refine ih (applyMatch s m0) hnd.2 m hm ?_
      show m.1.1 ∈ (setKeyVal m0.1.1 0 s.disappeared).map Prod.fst
      rw [keys_setKeyVal]
      exact hmem

theorem ageOne_other {cfg : TrackerConfig} {s : TrackerState} {id k : ℕ}
    (hne : id ≠ k) :
    lookupKey id (ageOne cfg s k).disappeared = lookupKey id s.disappeared ∧
    (id ∈ objKeys (ageOne cfg s k) ↔ id ∈ objKeys s) ∧
    lookupKey id (ageOne cfg s k).detections_history =
      lookupKey id s.detections_history ∧
    (id ∈ ((ageOne cfg s k).detections_history).map Prod.fst ↔
      id ∈ (s.detections_history).map Prod.fst) := by
  rw [ageOne]
  split
  · refine ⟨?_, ?_, ?_, ?_⟩
    · show lookupKey id (eraseKey k (setKeyVal k _ s.disappeared)) = _
      rw [lookupKey_eraseKey_ne hne, lookupKey_setKeyVal_ne hne]
    · show id ∈ (eraseKey k s.objects).map Prod.fst ↔ _
      rw [keys_eraseKey, List.mem_filter]
      exact ⟨fun h => h.1, fun h => ⟨h, by simp [hne]⟩⟩
    · exact lookupKey_eraseKey_ne hne _
    · show id ∈ (eraseKey k s.detections_history).map Prod.fst ↔ _
      rw [keys_eraseKey, List.mem_filter]
      exact ⟨fun h => h.1, fun h => ⟨h, by simp [hne]⟩⟩
  · exact ⟨lookupKey_setKeyVal_ne hne _ _, Iff.rfl, rfl, Iff.rfl⟩

theorem foldl_ageOne_tracks (cfg : TrackerConfig) :
    ∀ (l : List ℕ) (s : TrackerState) (id : ℕ), id ∉ l →
      lookupKey id ((l.foldl (ageOne cfg) s)).disappeared = lookupKey id s.disappeared ∧
      (id ∈ objKeys (l.foldl (ageOne cfg) s) ↔ id ∈ objKeys s) ∧
      lookupKey id ((l.foldl (ageOne cfg) s)).detections_history =
        lookupKey id s.detections_history ∧
      (id ∈ ((l.foldl (ageOne cfg) s).detections_history).map Prod.fst ↔
        id ∈ (s.detections_history).map Prod.fst) := by
  intro l
  induction l with
  | nil => exact fun s id _ => ⟨rfl, Iff.rfl, rfl, Iff.rfl⟩
  | cons k t ih =>
    intro s id hid
    have hne : id ≠ k := fun hc => hid (hc ▸ List.mem_cons_self k t)
    have hid' : id ∉ t := fun hc => hid (List.mem_cons_of_mem k hc)
    rw [List.foldl_cons]
    rcases ih (ageOne cfg s k) id hid' with ⟨h1, h2, h3, h4⟩
    rcases @ageOne_other cfg s id k hne with ⟨g1, g2, g3, g4⟩
    exact ⟨h1.trans g1, h2.trans g2, h3.trans g3, h4.trans g4⟩

theorem ageOne_self {cfg : TrackerConfig} {s : TrackerState} {id : ℕ} {old : ℕ}
    (hold : lookupKey id s.disappeared = some old) :
    (¬ cfg.max_disappeared < old + 1 →
      lookupKey id (ageOne cfg s id).disappeared = some (old + 1) ∧
      objKeys (ageOne cfg s id) = objKeys s) ∧
    (cfg.max_disappeared < old + 1 →
      lookupKey id (ageOne cfg s id).disappeared = none ∧
      id ∉ objKeys (ageOne cfg s id)) := by
  have hmem : id ∈ s.disappeared.map Prod.fst := mem_keys_of_lookupKey_eq_some hold
  rw [ageOne, hold]
  constructor
  · intro hle
    rw [if_neg (by simpa using hle)]
    exact ⟨lookupKey_setKeyVal_eq _ hmem, rfl⟩
  · intro hgt
    rw [if_pos (by simpa using hgt)]
    constructor
    · exact lookupKey_eraseKey_eq id _
    · show id ∉ (eraseKey id s.objects).map Prod.fst
      rw [keys_eraseKey]
      intro hc
      have := (List.mem_filter.mp hc).2
      simp at this

theorem register_lookup_lt {s : TrackerState} {id : ℕ} (hlt : id < s.next_object_id)
    (c : ℚ × ℚ) (d : Detection) :
    lookupKey id (register s c d).disappeared = lookupKey id s.disappeared ∧
    (id ∈ objKeys (register s c d) ↔ id ∈ objKeys s) ∧
    lookupKey id (register s c d).detections_history =
      lookupKey id s.detections_history := by
  have hne : id ≠ s.next_object_id := Nat.ne_of_lt hlt
  refine ⟨lookupKey_append_single_ne hne 0 _, ?_, lookupKey_append_single_ne hne _ _⟩
  show id ∈ (s.objects ++ [(s.next_object_id, c)]).map Prod.fst ↔ _
  rw [List.map_append, List.mem_append]
  constructor
  · intro h
    rcases h with h | h
    · exact h
    · rw [List.map_singleton, List.mem_singleton] at h
      exact absurd h hne
  · exact Or.inl

theorem foldl_register_lookup (l : List (ℕ × Detection)) :
    ∀ (s : TrackerState) (id : ℕ), id < s.next_object_id →
      lookupKey id ((l.foldl (fun st e => register st e.2.centroid e.2) s)).disappeared =
        lookupKey id s.disappeared ∧
      (id ∈ objKeys (l.foldl (fun st e => register st e.2.centroid e.2) s) ↔
        id ∈ objKeys s) ∧
      lookupKey id
          ((l.foldl (fun st e => register st e.2.centroid e.2) s)).detections_history =
        lookupKey id s.detections_history := by
  induction l with
  | nil => exact fun s id _ => ⟨rfl, Iff.rfl, rfl⟩
  | cons e t ih =>
    intro s id hlt
    rw [List.foldl_cons]
    rcases ih (register s e.2.centroid e.2) id (hlt.trans (Nat.lt_succ_self _)) with
      ⟨h1, h2, h3⟩
    rcases register_lookup_lt hlt e.2.centroid e.2 with ⟨g1, g2, g3⟩
    exact ⟨h1.trans g1, h2.trans g2, h3.trans g3⟩

theorem foldl_register_fresh (l : List (ℕ × Detection)) :
    ∀ s : TrackerState,
      (∀ k ∈ (s.detections_history).map Prod.fst, k < s.next_object_id) →
      ∀ e ∈ l, ∃ nid, s.next_object_id ≤ nid ∧
        lookupKey nid
            ((l.foldl (fun st e => register st e.2.centroid e.2) s)).detections_history =
          some [e.2] ∧
        nid ∈ objKeys (l.foldl (fun st e => register st e.2.centroid e.2) s) := by
  induction l with
  | nil =>
    intro s _ e he
    exact absurd he (List.not_mem_nil e)
  | cons e0 t ih =>
    intro s hbound e he
    rw [List.foldl_cons]
    have hbound' : ∀ k ∈ ((register s e0.2.centroid e0.2).detections_history).map
        Prod.fst, k < (register s e0.2.centroid e0.2).next_object_id := by
      intro k hk
      show k < s.next_object_id + 1
      have hk' : k ∈ (s.detections_history ++
          [(s.next_object_id, [e0.2])]).map Prod.fst := hk
      rw [List.map_append] at hk'
      rcases List.mem_append.mp hk' with hk2 | hk2
      · exact (hbound k hk2).trans (Nat.lt_succ_self _)
      · rw [List.map_singleton, List.mem_singleton] at hk2
        subst hk2
        exact Nat.lt_succ_self _
    rcases List.mem_cons.mp he with he | he
    · subst he
      refine ⟨s.next_object_id, le_refl _, ?_, ?_⟩
      · have hnotin : lookupKey s.next_object_id s.detections_history = none := by
          apply lookupKey_eq_none_of_not_mem
          intro hc
          exact lt_irrefl _ (hbound _ hc)
        have hreg : lookupKey s.next_object_id
            (register s e.2.centroid e.2).detections_history = some [e.2] := by
          show lookupKey s.next_object_id
            (s.detections_history ++ [(s.next_object_id, [e.2])]) = some [e.2]
          rw [lookupKey_append_none hnotin, lookupKey_cons, if_pos rfl]
        rw [(foldl_register_lookup t _ s.next_object_id (Nat.lt_succ_self _)).2.2, hreg]
      · refine (foldl_register_lookup t _ s.next_object_id (Nat.lt_succ_self _)).2.1.mpr ?_
        show s.next_object_id ∈ (s.objects ++ [(s.next_object_id, e.2.centroid)]).map
          Prod.fst
        rw [List.map_append, List.mem_append, List.map_singleton]
        exact Or.inr (List.mem_singleton.mpr rfl)
    · rcases ih (register s e0.2.centroid e0.2) hbound' e he with ⟨nid, hnid1, hnid2, hnid3⟩
      exact ⟨nid, (Nat.le_succ _).trans hnid1, hnid2, hnid3⟩

theorem histKeys_ageOne_subset (cfg : TrackerConfig) (s : TrackerState) (id : ℕ) :
    ∀ k ∈ ((ageOne cfg s id).detections_history).map Prod.fst,
      k ∈ (s.detections_history).map Prod.fst := by
  intro k hk
  rw [ageOne] at hk
  split at hk
  · simp only [deregister] at hk
    rw [keys_eraseKey] at hk
    exact List.mem_of_mem_filter hk
  · exact hk

theorem histKeys_foldl_ageOne_subset (cfg : TrackerConfig) (l : List ℕ) :
    ∀ (s : TrackerState) (k : ℕ),
      k ∈ (((l.foldl (ageOne cfg) s)).detections_history).map Prod.fst →
      k ∈ (s.detections_history).map Prod.fst := by
  induction l with
  | nil => exact fun s k h => h
  | cons i t ih =>
    intro s k hk
    exact histKeys_ageOne_subset cfg s i k (ih (ageOne cfg s i) k hk)

theorem histKeys_foldl_applyMatch (ms : List ((ℕ × (ℚ × ℚ)) × (ℕ × Detection))) :
    ∀ s : TrackerState,
      (((ms.foldl applyMatch s)).detections_history).map Prod.fst =
        (s.detections_history).map Prod.fst := by
  induction ms with
  | nil => exact fun s => rfl
  | cons m t ih =>
    intro s
    rw [List.foldl_cons, ih]
    exact keys_setKeyVal _ _ _

theorem greedyMatch_rows_sublist (cfg : TrackerConfig) (eds : List (ℕ × Detection)) :
    ∀ (rows : List (ℕ × (ℚ × ℚ))) (used : List ℕ),
      ((greedyMatch cfg eds rows used).map Prod.fst).Sublist rows := by
  intro rows
  induction rows with
  | nil => exact fun used => by simp [greedyMatch]
  | cons r rs ih =>
    intro used
    rw [greedyMatch]
    split
    · exact (ih used).cons r
    · rw [List.map_cons]
      exact (ih _).cons₂ r

theorem update_match_eq (cfg : TrackerConfig) (s : TrackerState)
    (dets : List Detection) (hd : ¬ dets.length = 0) (ho : ¬ s.objects.length = 0) :
    (CentroidTracker_update cfg s dets).2 =
      (unmatchedDetections cfg s dets).foldl (fun st e => register st e.2.centroid e.2)
        ((unmatchedRowIds cfg s dets).foldl (ageOne cfg)
          ((trackerMatches cfg s dets).foldl applyMatch s)) := by
  rw [CentroidTracker_update, if_neg hd]
  simp only
  rw [if_neg ho]

/-- C4 (amended): on a frame with both existing tracks and detections, the
tracks are processed in ascending order of their minimum distance to any
detection (`trackerRows` is a sorted permutation of the track table); each
accepted match pairs a track with its GLOBALLY nearest detection (its row
`argmin`), within `max_distance`; no detection is used twice; a track left
unmatched was skipped because its nearest detection was out of range or
already taken by an earlier track — it is NOT given its nearest unused
detection; matched tracks get their miss count reset to 0; unmatched tracks
get their miss count incremented by one (and are removed when it exceeds
`max_disappeared`); each unmatched detection spawns a fresh track holding
exactly that detection, and the id counter advances by the number of
unmatched detections. -/
theorem tracker_matching_spec (cfg : TrackerConfig) (s : TrackerState)
    (dets : List Detection) (hwf : TrackerWF s) (hal : TrackerAligned s)
    (hdets : dets ≠ []) (hobj : s.objects ≠ []) :
    (trackerRows s dets).Perm s.objects ∧
    List.Pairwise (fun a b =>
      (argminEntry a.2 dets.enum).2 ≤ (argminEntry b.2 dets.enum).2)
      (trackerRows s dets) ∧
    (∀ m ∈ trackerMatches cfg s dets,
      m.2 = (argminEntry m.1.2 dets.enum).1 ∧
      ¬(cfg.max_distance < 0 ∨ cfg.max_distance ^ 2 < (argminEntry m.1.2 dets.enum).2) ∧
      m.1 ∈ trackerRows s dets) ∧
    ((trackerMatches cfg s dets).map (fun m => m.2.1)).Nodup ∧
    (∀ r ∈ trackerRows s dets, r ∉ (trackerMatches cfg s dets).map Prod.fst →
      ((cfg.max_distance < 0 ∨ cfg.max_distance ^ 2 < (argminEntry r.2 dets.enum).2) ∨
        (argminEntry r.2 dets.enum).1.1 ∈
          (trackerMatches cfg s dets).map (fun m => m.2.1))) ∧
    (∀ m ∈ trackerMatches cfg s dets,
      lookupKey m.1.1 (CentroidTracker_update cfg s dets).2.disappeared = some 0) ∧
    (∀ id old, id ∈ unmatchedRowIds cfg s dets →
      lookupKey id s.disappeared = some old →
      (¬ cfg.max_disappeared < old + 1 →
        lookupKey id (CentroidTracker_update cfg s dets).2.disappeared =
          some (old + 1)) ∧
      (cfg.max_disappeared < old + 1 →
        id ∉ objKeys (CentroidTracker_update cfg s dets).2)) ∧
    (∀ e ∈ unmatchedDetections cfg s dets,
      ∃ nid, s.next_object_id ≤ nid ∧
        lookupKey nid (CentroidTracker_update cfg s dets).2.detections_history =
          some [e.2] ∧
        nid ∈ objKeys (CentroidTracker_update cfg s dets).2) ∧
    (CentroidTracker_update cfg s dets).2.next_object_id =
      s.next_object_id + (unmatchedDetections cfg s dets).length := by
  have hd0 : ¬ dets.length = 0 := fun hc => hdets (List.length_eq_zero.mp hc)
  have ho0 : ¬ s.objects.length = 0 := fun hc => hobj (List.length_eq_zero.mp hc)
  have heq := update_match_eq cfg s dets hd0 ho0
  have hperm : (trackerRows s dets).Perm s.objects := sortRows_perm _ _
  have hg := greedyMatch_entries cfg dets.enum (trackerRows s dets) []
  have hkeysNodup : (objKeys s).Nodup := List.Pairwise.imp ne_of_lt hwf.1
  have hrowKeysNodup : ((trackerRows s dets).map Prod.fst).Nodup :=
    ((hperm.map Prod.fst).nodup_iff).mpr hkeysNodup
  have hmsIdsNodup : ((trackerMatches cfg s dets).map (fun m => m.1.1)).Nodup := by
    have h1 : ((trackerMatches cfg s dets).map Prod.fst).Sublist (trackerRows s dets) :=
      greedyMatch_rows_sublist cfg dets.enum (trackerRows s dets) []
    have h2 := h1.map Prod.fst
    rw [List.map_map] at h2
    exact List.Nodup.sublist h2 hrowKeysNodup
  have hmemObj : ∀ m ∈ trackerMatches cfg s dets, m.1.1 ∈ objKeys s := by
    intro m hm
    exact List.mem_map_of_mem Prod.fst (hperm.subset ((hg.1 m hm).2.2.1))
  have hnexts4 : ((unmatchedRowIds cfg s dets).foldl (ageOne cfg)
      ((trackerMatches cfg s dets).foldl applyMatch s)).next_object_id =
      s.next_object_id := by
    rw [next_foldl_ageOne, next_foldl_applyMatch]
  have hunNodup : (unmatchedRowIds cfg s dets).Nodup := List.Nodup.filter _ hkeysNodup
  refine ⟨hperm, sortRows_sorted _ _, ?_, hg.2, ?_, ?_, ?_, ?_, ?_⟩
  · intro m hm
    rcases hg.1 m hm with ⟨h1, h2, h3, _⟩
    exact ⟨h1, h2, h3⟩
  · intro r hr hnm
    rcases greedyMatch_skipped cfg dets.enum (trackerRows s dets) [] r hr hnm with
      h | h | h
    · exact Or.inl h
    · exact absurd h (List.not_mem_nil _)
    · exact Or.inr h
  · intro m hm
    have hmemD : m.1.1 ∈ s.disappeared.map Prod.fst := by
      rw [hal.1]
      exact hmemObj m hm
    have hs3 : lookupKey m.1.1 ((trackerMatches cfg s dets).foldl applyMatch
        s).disappeared = some 0 :=
      foldl_applyMatch_matched cfg (trackerMatches cfg s dets) s hmsIdsNodup m hm hmemD
    have hnotun : m.1.1 ∉ unmatchedRowIds cfg s dets := by
      intro hc
      have := (List.mem_filter.mp hc).2
      rw [decide_eq_true_iff] at this
      exact this (List.mem_map_of_mem (fun m => m.1.1) hm)
    have hs4 := (foldl_ageOne_tracks cfg (unmatchedRowIds cfg s dets)
      ((trackerMatches cfg s dets).foldl applyMatch s) m.1.1 hnotun).1
    have hlt : m.1.1 < ((unmatchedRowIds cfg s dets).foldl (ageOne cfg)
        ((trackerMatches cfg s dets).foldl applyMatch s)).next_object_id := by
      rw [hnexts4]
      exact hwf.2 _ (hmemObj m hm)
    rw [heq, (foldl_register_lookup _ _ _ hlt).1, hs4, hs3]
  · intro id old hid hold
    have hidobj : id ∈ objKeys s := (List.mem_filter.mp hid).1
    have hnotms : id ∉ (trackerMatches cfg s dets).map (fun m => m.1.1) := by
      have := (List.mem_filter.mp hid).2
      rw [decide_eq_true_iff] at this
      exact this
    have hs3 : lookupKey id ((trackerMatches cfg s dets).foldl applyMatch
        s).disappeared = some old := by
      rw [disappeared_foldl_applyMatch_ne _ _
        (fun m hm hc =>
          hnotms (by rw [← hc]; exact List.mem_map_of_mem (fun m => m.1.1) hm))]
      exact hold
    obtain ⟨l1, l2, hsplit⟩ := List.append_of_mem hid
    have hnd : (l1 ++ id :: l2).Nodup := hsplit ▸ hunNodup
    rcases List.nodup_append.mp hnd with ⟨hnd1, hnd2, hdisj⟩
    have hidl1 : id ∉ l1 := fun hc => hdisj hc (List.mem_cons_self _ _)
    have hidl2 : id ∉ l2 := (List.nodup_cons.mp hnd2).1
    have hpre : lookupKey id ((l1.foldl (ageOne cfg)
        ((trackerMatches cfg s dets).foldl applyMatch s))).disappeared = some old :=
      ((foldl_ageOne_tracks cfg l1 _ id hidl1).1).trans hs3
    have hfold : (unmatchedRowIds cfg s dets).foldl (ageOne cfg)
        ((trackerMatches cfg s dets).foldl applyMatch s) =
        l2.foldl (ageOne cfg) (ageOne cfg (l1.foldl (ageOne cfg)
          ((trackerMatches cfg s dets).foldl applyMatch s)) id) := by
      rw [hsplit, List.foldl_append, List.foldl_cons]
    have hltn : id < ((unmatchedRowIds cfg s dets).foldl (ageOne cfg)
        ((trackerMatches cfg s dets).foldl applyMatch s)).next_object_id := by
      rw [hnexts4]
      exact hwf.2 _ hidobj
    rcases ageOne_self hpre with ⟨hA, hB⟩
    constructor
    · intro hle
      rcases hA hle with ⟨ha1, _⟩
      have hs4 : lookupKey id ((unmatchedRowIds cfg s dets).foldl (ageOne cfg)
          ((trackerMatches cfg s dets).foldl applyMatch s)).disappeared =
          some (old + 1) := by
        rw [hfold, (foldl_ageOne_tracks cfg l2 _ id hidl2).1]
        exact ha1
      rw [heq, (foldl_register_lookup _ _ _ hltn).1]
      exact hs4
    · intro hgt
      rcases hB hgt with ⟨_, hb2⟩
      have hs4 : id ∉ objKeys ((unmatchedRowIds cfg s dets).foldl (ageOne cfg)
          ((trackerMatches cfg s dets).foldl applyMatch s)) := by
        rw [hfold]
        intro hc
        exact hb2 ((foldl_ageOne_tracks cfg l2 _ id hidl2).2.1.mp hc)
      rw [heq]
      intro hc
      exact hs4 ((foldl_register_lookup _ _ _ hltn).2.1.mp hc)
  · intro e he
    have hbound : ∀ k ∈ (((unmatchedRowIds cfg s dets).foldl (ageOne cfg)
        ((trackerMatches cfg s dets).foldl applyMatch s)).detections_history).map
        Prod.fst, k < ((unmatchedRowIds cfg s dets).foldl (ageOne cfg)
        ((trackerMatches cfg s dets).foldl applyMatch s)).next_object_id := by
      intro k hk
      rw [hnexts4]
      have h1 := histKeys_foldl_ageOne_subset cfg (unmatchedRowIds cfg s dets) _ k hk
      rw [histKeys_foldl_applyMatch, hal.2.1] at h1
      exact hwf.2 k h1
    obtain ⟨nid, h1, h2, h3⟩ := foldl_register_fresh (unmatchedDetections cfg s dets)
      _ hbound e he
    rw [hnexts4] at h1
    rw [heq]
    exact ⟨nid, h1, h2, h3⟩
  · rw [heq, next_foldl_register, hnexts4]

/-- Two tracks at (0,0) and (1,0) (ids 0 and 1). -/
def cxState : TrackerState :=
  register (register initTracker (0, 0) (Detection.mk (BBox.mk 0 0 1 1) 1 1 1 (0, 0)))
    (1, 0) (Detection.mk (BBox.mk 1 0 1 1) 1 1 1 (1, 0))

/-- Frame detection at (0,0): nearest to both tracks. -/
def cxDetA : Detection := Detection.mk (BBox.mk 0 0 1 1) 1 1 1 (0, 0)

/-- Frame detection at (10,0): within `max_distance` of track 1, unused. -/
def cxDetB : Detection := Detection.mk (BBox.mk 10 0 1 1) 1 1 1 (10, 0)

def cxCfg : TrackerConfig := TrackerConfig.mk 5 50

theorem cx_trackerMatches :
    trackerMatches cxCfg cxState [cxDetA, cxDetB] = [((0, (0, 0)), (0, cxDetA))] := by
  have henum : ([cxDetA, cxDetB]).enum = [(0, cxDetA), (1, cxDetB)] := rfl
  have h3 : argminEntry (0, 0) [(0, cxDetA), (1, cxDetB)] = ((0, cxDetA), 0) := by
    rw [argminEntry]
    norm_num [sqDist, cxDetA, cxDetB]
  have h4 : argminEntry (1, 0) [(0, cxDetA), (1, cxDetB)] = ((0, cxDetA), 1) := by
    rw [argminEntry]
    norm_num [sqDist, cxDetA, cxDetB]
  have h5 : trackerRows cxState [cxDetA, cxDetB] = [(0, (0, 0)), (1, (1, 0))] := by
    rw [trackerRows]
    show sortRows _ [(0, (0, 0)), (1, (1, 0))] = _
    rw [sortRows, List.foldr_cons, List.foldr_cons, List.foldr_nil,
      insertSorted, insertSorted]
    rw [henum, h3, h4]
    norm_num
  rw [trackerMatches, h5, henum, greedyMatch]
  rw [show ((0, (0, 0)) : ℕ × (ℚ × ℚ)).2 = ((0, 0) : ℚ × ℚ) from rfl, h3]
  rw [if_neg (by
    push_neg
    refine ⟨List.not_mem_nil 0, by norm_num [cxCfg], by norm_num [cxCfg]⟩)]
  rw [greedyMatch]
  rw [show ((1, (1, 0)) : ℕ × (ℚ × ℚ)).2 = ((1, 0) : ℚ × ℚ) from rfl, h4]
  rw [if_pos (Or.inl (by simp))]
  rw [greedyMatch]

/-- C4 (counterexample): with tracks at (0,0) and (1,0) and detections at
(0,0) and (10,0) (`max_distance = 50`), both tracks' nearest detection is
detection 0. Track 0 takes it; track 1 is then SKIPPED even though its
nearest not-yet-used detection (detection 1, distance 9 ≤ 50) is available:
its miss count becomes 1, and detection 1 spawns a new track (id counter
advances to 3). Under the claim, track 1 would be assigned detection 1,
keeping its miss count at 0 and spawning no new track. -/
theorem tracker_greedy_counterexample :
    sqDist (1, 0) cxDetB.centroid ≤ cxCfg.max_distance ^ 2 ∧
    (1, cxDetB) ∉ (trackerMatches cxCfg cxState [cxDetA, cxDetB]).map Prod.snd ∧
    lookupKey 1
      (CentroidTracker_update cxCfg cxState [cxDetA, cxDetB]).2.disappeared =
      some 1 ∧
    (CentroidTracker_update cxCfg cxState [cxDetA, cxDetB]).2.next_object_id = 3 := by
  have hupd := update_match_eq cxCfg cxState [cxDetA, cxDetB] (by norm_num)
    (by show ¬ ([((0 : ℕ), ((0 : ℚ), (0 : ℚ))), (1, (1, 0))]).length = 0; norm_num)
  have hun : unmatchedRowIds cxCfg cxState [cxDetA, cxDetB] = [1] := by
    rw [unmatchedRowIds, cx_trackerMatches]
    rfl
  have hcols : unmatchedDetections cxCfg cxState [cxDetA, cxDetB] = [(1, cxDetB)] := by
    rw [unmatchedDetections, cx_trackerMatches]
    rfl
  refine ⟨by norm_num [sqDist, cxDetB, cxCfg], ?_, ?_, ?_⟩
  · rw [cx_trackerMatches]
    intro hc
    simp only [List.map_cons, List.map_nil, List.mem_singleton] at hc
    have : (1 : ℕ) = 0 := congrArg Prod.fst hc
    simp at this
  · rw [hupd, hun, hcols, cx_trackerMatches]
    rfl
  · rw [hupd, hun, hcols, cx_trackerMatches]
    rfl

theorem tracker_matching_spec_witness :
    (CentroidTracker_update cxCfg cxState [cxDetA, cxDetB]).2.next_object_id =
      cxState.next_object_id +
        (unmatchedDetections cxCfg cxState [cxDetA, cxDetB]).length :=
  (tracker_matching_spec cxCfg cxState [cxDetA, cxDetB]
    ⟨by show List.Pairwise (· < ·) ([0, 1] : List ℕ); decide,
     by
      intro id hid
      have h : id ∈ ([0, 1] : List ℕ) := hid
      fin_cases h <;> decide⟩
    ⟨rfl, rfl, by
      intro p hp
      have h : p ∈ [((0 : ℕ), [Detection.mk (BBox.mk 0 0 1 1) 1 1 1 (0, 0)]),
        (1, [Detection.mk (BBox.mk 1 0 1 1) 1 1 1 (1, 0)])] := hp
      fin_cases h <;> simp⟩
    (by simp)
    (by
      show ([((0 : ℕ), ((0 : ℚ), (0 : ℚ))), (1, (1, 0))] : List (ℕ × (ℚ × ℚ))) ≠ []
      simp)).2.2.2.2.2.2.2.2
